import Mathlib

/-!
Shallow embedding of the conversion worker of `m4sTmp3-y.py`
(class `FFmpegWorker`), the per-file ffmpeg driver of the
video-to-audio batch converter.

Modelling conventions:
* Python strings are modelled as `List Char` (code points), with `String`
  wrappers at the interface.  All string operations the worker uses
  (`str.split`, `str.strip`, `os.path.basename`, `os.path.splitext`,
  `os.path.join`, the two `re.search` patterns, `int()`/`float()` on the
  digit strings the regexes produce) are implemented structurally below.
  `\d` and whitespace are modelled as their ASCII meaning, which covers
  every string ffmpeg produces.
* Python floats are modelled as `ℚ`.  Every numeral the worker parses has
  the form `d+` or `d+.d+`; the concrete values in the spec (`.50`, `.25`)
  are exactly representable, so the rational model is exact there.
* `int(s)` / `float(s)` raise `ValueError` on malformed input; this is
  modelled by `Option`, `none` standing for the raised exception.
* The outside world seen by `run` (existence of the input file and the
  sibling `.m4a`, the probe's stderr text, each subprocess's streamed
  output chunks and exit code, the value of the cancellation flag at each
  of `run`'s cancellation checks, the wall clock) is a `WorkerEnv`.
  Signal emissions become an event list; `os.remove` calls and the ffmpeg
  command lines started become lists in the result.
-/

namespace PyStr

/-- Value of a non-empty all-digit string, `none` otherwise.  Models
Python `int(s)` on the digit-form strings produced by the regexes and
splits of this program (Python `int` also accepts signs/whitespace, which
never reach these call sites). -/
def digitsVal (cs : List Char) : Option Nat :=
  if cs ≠ [] ∧ cs.all Char.isDigit then
    some (cs.foldl (fun n c => 10 * n + (c.toNat - 48)) 0)
  else none

/-- Python `s.split(sep)` for a one-character separator. -/
def splitOnChar (sep : Char) : List Char → List (List Char)
  | [] => [[]]
  | c :: cs =>
    match splitOnChar sep cs with
    | [] => [[c]]
    | g :: gs => if c = sep then [] :: g :: gs else (c :: g) :: gs

/-- Python `float(s)` on strings of the form `d+`, `d+.d+`, `.d+`, `d+.`
(the forms reachable here); `none` models `ValueError`. -/
def pyFloat (cs : List Char) : Option ℚ :=
  match splitOnChar '.' cs with
  | [a] => (digitsVal a).map (fun n : Nat => (n : ℚ))
  | [a, b] =>
    if a = [] then (digitsVal b).map (fun f : Nat => (f : ℚ) / 10 ^ b.length)
    else if b = [] then (digitsVal a).map (fun n : Nat => (n : ℚ))
    else do
      let n ← digitsVal a
      let f ← digitsVal b
      pure ((n : ℚ) + (f : ℚ) / 10 ^ b.length)
  | _ => none

/-- ASCII whitespace stripped by Python `str.strip()`. -/
def isSpace (c : Char) : Bool :=
  c = ' ' ∨ c = '\t' ∨ c = '\n' ∨ c = '\x0d' ∨ c = '\x0b' ∨ c = '\x0c'

/-- Python `s.strip()`. -/
def pyStrip (cs : List Char) : List Char :=
  ((cs.dropWhile isSpace).reverse.dropWhile isSpace).reverse

end PyStr

namespace PyPath

/-- Model of `os.path.basename` (posix): everything after the last `/`. -/
def basenameL (cs : List Char) : List Char :=
  (cs.reverse.takeWhile (fun c => c ≠ '/')).reverse

/-- First component of `os.path.splitext` (posix): drop the extension,
where the extension starts at the last `.` of the final path component,
except that the leading dots of that component never start an
extension. -/
def splitextStemL (cs : List Char) : List Char :=
  let b := basenameL cs
  let d := cs.take (cs.length - b.length)
  let lead := b.takeWhile (fun c => c = '.')
  let rest := b.drop lead.length
  if rest.contains '.' then
    d ++ lead ++ ((rest.reverse.dropWhile (fun c => c ≠ '.')).tail).reverse
  else cs

/-- Model of `os.path.basename` on `String`. -/
def basename (p : String) : String := ⟨basenameL p.data⟩

/-- Model of `os.path.splitext(p)[0]` on `String`. -/
def splitextStem (p : String) : String := ⟨splitextStemL p.data⟩

/-- Model of `os.path.join` (posix) for the two-argument form used here. -/
def pathJoin (a b : String) : String :=
  if b.data.head? = some '/' then b
  else if a = "" then b
  else if a.data.getLast? = some '/' then a ++ b
  else a ++ "/" ++ b

end PyPath

namespace PyRe

/-- Match of `\d+:\d+:\d+\.\d+` (ASCII) anchored at the head of `cs`,
returning the matched characters.  With this pattern, greedy maximal
digit runs are exact: a shorter `\d+` would put a digit where `:` or `.`
is required, so backtracking can never recover a failure. -/
def matchTimeGroup (cs : List Char) : Option (List Char) :=
  let d1 := cs.takeWhile Char.isDigit
  match cs.drop d1.length with
  | ':' :: r2 =>
    let d2 := r2.takeWhile Char.isDigit
    match r2.drop d2.length with
    | ':' :: r4 =>
      let d3 := r4.takeWhile Char.isDigit
      match r4.drop d3.length with
      | '.' :: r6 =>
        let d4 := r6.takeWhile Char.isDigit
        if d1 ≠ [] ∧ d2 ≠ [] ∧ d3 ≠ [] ∧ d4 ≠ [] then
          some (d1 ++ ':' :: (d2 ++ ':' :: (d3 ++ '.' :: d4)))
        else none
      | _ => none
    | _ => none
  | _ => none

/-- Search model of `re.search(lit ++ r"(\d+:\d+:\d+\.\d+)", s)`: leftmost position where
the literal is followed by a time group; returns the captured group. -/
def searchLitGroup (lit : List Char) : List Char → Option (List Char)
  | [] => none
  | c :: rest =>
    match (if lit.isPrefixOf (c :: rest) then matchTimeGroup ((c :: rest).drop lit.length) else none) with
    | some g => some g
    | none => searchLitGroup lit rest

/-- Model of `re.search(r"Duration: (\d+:\d+:\d+\.\d+)", s)`, group 1. -/
def searchDuration (s : String) : Option String :=
  (searchLitGroup "Duration: ".data s.data).map (fun g => ⟨g⟩)

/-- Model of `re.search(r"time=(\d+:\d+:\d+\.\d+)", s)`, group 1. -/
def searchTime (s : String) : Option String :=
  (searchLitGroup "time=".data s.data).map (fun g => ⟨g⟩)

end PyRe

namespace FFmpegWorker

open PyStr PyPath PyRe

/-- Model of `FFmpegWorker._time_str_to_seconds`: split on `:`; three parts are
`int:int:float` hours—minutes—seconds, two parts are `int:float`
minutes—seconds, any other arity returns `0.0`.  `none` models the
`ValueError` Python raises when a part is not numeric. -/
def time_str_to_seconds (time_str : String) : Option ℚ :=
  match splitOnChar ':' time_str.data with
  | [h, m, s] => do
    let hours ← digitsVal h
    let minutes ← digitsVal m
    let seconds ← pyFloat s
    pure ((hours : ℚ) * 3600 + (minutes : ℚ) * 60 + seconds)
  | [m, s] => do
    let minutes ← digitsVal m
    let seconds ← pyFloat s
    pure ((minutes : ℚ) * 60 + seconds)
  | _ => pure 0

/-- Value of `self._total_duration` after the probe step of `run`: the parsed
`Duration:` group of the probe's stderr, or `0.0` when the regex does not
match.  (The group always parses — `searchDuration_parses` below — so the
`getD 0` default is unreachable.) -/
def totalDurationOf (probeStderr : String) : ℚ :=
  match searchDuration probeStderr with
  | some g => (time_str_to_seconds g).getD 0
  | none => 0

/-- One `ConversionEvent`: a signal emission of the worker.
`progress` is `progress_signal(fraction, filename)`, `finished` is
`finished_signal(output_path, elapsed_seconds)`, `error` is
`error_signal(message)`. -/
inductive Event
  | progress (fraction : ℚ) (filename : String)
  | finished (output_path : String) (elapsed : ℚ)
  | error (message : String)
  deriving DecidableEq

def Event.isProgress : Event → Bool
  | .progress _ _ => true
  | _ => false

def Event.isFinished : Event → Bool
  | .finished _ _ => true
  | _ => false

def Event.isError : Event → Bool
  | .error _ => true
  | _ => false

/-- One chunk of subprocess output, as delivered to `_read_stdout`
(`out`) or `_read_stderr` (`err`) by a readyRead signal. -/
inductive Chunk
  | out (s : String)
  | err (s : String)
  deriving DecidableEq

/-- One subprocess run under `_run_ffmpeg`: the chunks its two streams
deliver while it runs, and its exit code. -/
structure ProcRun where
  chunks : List Chunk
  exitCode : Int
  deriving DecidableEq

/-- Events emitted by `_read_stdout` / `_read_stderr` for one chunk,
given the worker's `_total_duration` and the basename of the original
input path.  `_read_stdout` emits a progress fraction
`parsed time / total_duration` only when the chunk is non-blank, the
`time=` regex matches and `_total_duration > 0`; `_read_stderr` forwards
every non-blank stderr chunk as an error signal. -/
def chunkEvents (total : ℚ) (fname : String) : Chunk → List Event
  | .out s =>
    if pyStrip s.data ≠ [] then
      match searchTime s with
      | some g =>
        if total > 0 then
          [.progress ((time_str_to_seconds g).getD 0 / total) fname]
        else []
      | none => []
    else []
  | .err s =>
    if pyStrip s.data ≠ [] then
      [.error ("⚠️ FFmpeg 输出: " ++ (⟨pyStrip s.data⟩ : String))]
    else []

/-- All events one subprocess produces through its connected slots. -/
def procEvents (total : ℚ) (fname : String) (p : ProcRun) : List Event :=
  p.chunks.flatMap (chunkEvents total fname)

/-- The command list built by `_run_merge` (element 0 is the program). -/
def mergeCmd (ffmpeg in1 in2 outf : String) : List String :=
  [ffmpeg, "-y", "-i", in1, "-i", in2, "-c:v", "copy", "-c:a", "copy", "-f", "mpegts", outf]

/-- The command list built by `_run_audio_extract`. -/
def audioExtractCmd (ffmpeg : String) (use_loudnorm : Bool) (inf outf : String) : List String :=
  [ffmpeg, "-y", "-i", inf, "-vn", "-ar", "44100", "-ac", "2", "-b:a", "192k"]
    ++ (if use_loudnorm then ["-af", "loudnorm"] else []) ++ [outf]

/-- The command list built by `_run_direct_convert` (same shape as
`_run_audio_extract`). -/
def directConvertCmd (ffmpeg : String) (use_loudnorm : Bool) (inf outf : String) : List String :=
  [ffmpeg, "-y", "-i", inf, "-vn", "-ar", "44100", "-ac", "2", "-b:a", "192k"]
    ++ (if use_loudnorm then ["-af", "loudnorm"] else []) ++ [outf]

/-- The worker's output file path: `os.path.join(output_dir, base_name + ".mp3")`
with `base_name = os.path.splitext(os.path.basename(input_path))[0]`. -/
def outputPathOf (input_path output_dir : String) : String :=
  pathJoin output_dir (splitextStem (basename input_path) ++ ".mp3")

/-- The sibling audio-segment path `os.path.splitext(input_path)[0] + ".m4a"`. -/
def siblingAudioOf (input_path : String) : String :=
  splitextStem input_path ++ ".m4a"

/-- The intermediate merge artifact `os.path.splitext(input_path)[0] + "_merged.ts"`. -/
def mergedTsOf (input_path : String) : String :=
  splitextStem input_path ++ "_merged.ts"

/-- The outside world one call of `run` observes, fixed up front:
filesystem answers, the probe's stderr, each potential subprocess's
streamed chunks and exit code, the cancellation flag as read at `run`'s
two kinds of cancellation checks, and the wall-clock elapsed time.
`cancelAfterMerge` is `_is_cancelled` at the check right after
`_run_merge`; `cancelAfterFinal` is the flag at the check right after the
final conversion subprocess (`_run_audio_extract` or
`_run_direct_convert`).  The flag is only ever set, never cleared, so a
run with `cancelAfterMerge = true` and `cancelAfterFinal = false` does
not occur; theorems that need this take it as a hypothesis. -/
structure WorkerEnv where
  ffmpegPath : String
  inputExists : Bool
  siblingExists : Bool
  probeStderr : String
  mergeProc : ProcRun
  extractProc : ProcRun
  directProc : ProcRun
  cancelAfterMerge : Bool
  cancelAfterFinal : Bool
  elapsed : ℚ
  deriving DecidableEq

/-- What one call of `run` did: the signals it emitted in order, the
files it removed with `os.remove`, and the ffmpeg command lines it
started through `_run_ffmpeg` (the duration probe is not listed: `run`
starts it as the single space-joined string `ffmpeg + " -i " + input`,
not through `_run_ffmpeg`, and only its stderr matters here). -/
structure RunResult where
  events : List Event
  removed : List String
  cmds : List (List String)
  deriving DecidableEq

/-- Model of `FFmpegWorker.run`, a straight-line translation of the source:
existence check, output-path derivation, duration probe, then either the
merge-and-extract branch (sibling `.m4a` present) or the direct-convert
branch, with the cancellation checks and `os.remove` calls exactly where
the source has them. -/
def run (input_path output_dir : String) (use_loudnorm : Bool) (env : WorkerEnv) : RunResult :=
  if !env.inputExists then
    { events := [.error ("❌ 输入文件不存在: " ++ input_path)], removed := [], cmds := [] }
  else
    let output_path := outputPathOf input_path output_dir
    let total := totalDurationOf env.probeStderr
    let fname := basename input_path
    if env.siblingExists then
      let merged_ts := mergedTsOf input_path
      let cmd1 := mergeCmd env.ffmpegPath input_path (siblingAudioOf input_path) merged_ts
      let ev1 := procEvents total fname env.mergeProc
      if env.cancelAfterMerge then
        { events := ev1, removed := [], cmds := [cmd1] }
      else
        let cmd2 := audioExtractCmd env.ffmpegPath use_loudnorm merged_ts output_path
        let ev2 := procEvents total fname env.extractProc
        if env.cancelAfterFinal then
          { events := ev1 ++ ev2, removed := [merged_ts], cmds := [cmd1, cmd2] }
        else if env.extractProc.exitCode = 0 then
          { events := ev1 ++ ev2 ++ [.finished output_path env.elapsed],
            removed := [merged_ts], cmds := [cmd1, cmd2] }
        else
          { events := ev1 ++ ev2 ++ [.error "❌ 音频提取失败"], removed := [], cmds := [cmd1, cmd2] }
    else
      let cmd := directConvertCmd env.ffmpegPath use_loudnorm input_path output_path
      let ev := procEvents total fname env.directProc
      if env.cancelAfterFinal then
        { events := ev, removed := [], cmds := [cmd] }
      else if env.directProc.exitCode = 0 then
        { events := ev ++ [.finished output_path env.elapsed], removed := [], cmds := [cmd] }
      else
        { events := ev ++ [.error "❌ 直接转换失败"], removed := [], cmds := [cmd] }

end FFmpegWorker

namespace FFmpegWorker

/-- The progress fractions among a list of events, in emission order. -/
def progressFracs (evs : List Event) : List ℚ :=
  evs.filterMap fun e =>
    match e with
    | .progress f _ => some f
    | _ => none

/-- The time value `_read_stdout` would parse from one chunk: for a
non-blank stdout chunk whose `time=` regex matches, the parsed seconds;
otherwise nothing. -/
def chunkTime : Chunk → Option ℚ
  | .out s =>
    if PyStr.pyStrip s.data ≠ [] then
      (PyRe.searchTime s).map (fun g => (time_str_to_seconds g).getD 0)
    else none
  | .err _ => none

/-- All time values parsed from a chunk list, in order. -/
def chunkTimes (cs : List Chunk) : List ℚ := cs.filterMap chunkTime

/-- Chunks of all subprocesses a worker may start, in program order. -/
def allChunks (env : WorkerEnv) : List Chunk :=
  env.mergeProc.chunks ++ env.extractProc.chunks ++ env.directProc.chunks

/-- The chunks whose slots actually fire during `run` in `env`, in
program order: none when the input is missing, merge chunks then (unless
cancelled after the merge) extract chunks on the sibling branch, direct
chunks otherwise. -/
def activeChunks (env : WorkerEnv) : List Chunk :=
  if !env.inputExists then []
  else if env.siblingExists then
    env.mergeProc.chunks ++ (if env.cancelAfterMerge then [] else env.extractProc.chunks)
  else env.directProc.chunks

/-- Modelled from the spec's words for comparison (claim about the merge
argument set): `-y -i <in> -c:v copy -c:a copy -f mpegts <out>`. -/
def claimMergeArgs (inf outf : String) : List String :=
  ["-y", "-i", inf, "-c:v", "copy", "-c:a", "copy", "-f", "mpegts", outf]

/-- Modelled from the spec's words for comparison (claim about the encode
argument set): `-y -i <in> -vn -ar 44100 -ac 2 -b:a 192k [-af loudnorm] <out>`,
the loudness filter inserted before the output exactly when requested. -/
def claimEncodeArgs (normalize : Bool) (inf outf : String) : List String :=
  ["-y", "-i", inf, "-vn", "-ar", "44100", "-ac", "2", "-b:a", "192k"]
    ++ (if normalize then ["-af", "loudnorm"] else []) ++ [outf]

end FFmpegWorker

section ListLemmas

variable {α : Type} {p : α → Bool}

theorem takeWhile_all {l : List α} (h : ∀ x ∈ l, p x = true) : l.takeWhile p = l := by
  induction l with
  | nil => rfl
  | cons c cs ih =>
    rw [List.takeWhile_cons, h c (List.mem_cons_self c cs)]
    simp [ih fun x hx => h x (List.mem_cons_of_mem c hx)]

theorem takeWhile_append_stop {xs : List α} {y : α} (ys : List α)
    (hxs : ∀ x ∈ xs, p x = true) (hy : p y = false) :
    (xs ++ y :: ys).takeWhile p = xs := by
  induction xs with
  | nil => simp [List.takeWhile_cons, hy]
  | cons c cs ih =>
    rw [List.cons_append, List.takeWhile_cons, hxs c (List.mem_cons_self c cs)]
    simp [ih fun x hx => hxs x (List.mem_cons_of_mem c hx)]

theorem dropWhile_append_stop {xs : List α} {y : α} (ys : List α)
    (hxs : ∀ x ∈ xs, p x = true) (hy : p y = false) :
    (xs ++ y :: ys).dropWhile p = y :: ys := by
  induction xs with
  | nil => simp [List.dropWhile_cons, hy]
  | cons c cs ih =>
    rw [List.cons_append, List.dropWhile_cons]
    simp [hxs c (List.mem_cons_self c cs), ih fun x hx => hxs x (List.mem_cons_of_mem c hx)]

theorem drop_length_takeWhile (l : List α) :
    l.drop (l.takeWhile p).length = l.dropWhile p := by
  induction l with
  | nil => rfl
  | cons c cs ih =>
    rw [List.takeWhile_cons, List.dropWhile_cons]
    cases h : p c <;> simp [h, ih]

theorem takeWhile_append_of_exists_not {s : List α} (r : List α)
    (h : ∃ c ∈ s, p c = false) : (s ++ r).takeWhile p = s.takeWhile p := by
  induction s with
  | nil => simp at h
  | cons c cs ih =>
    by_cases hc : p c = true
    · obtain ⟨x, hx, hpx⟩ := h
      have hx' : x ∈ cs := by
        rcases List.mem_cons.mp hx with h1 | h1
        · exfalso; rw [h1] at hpx; rw [hc] at hpx; cases hpx
        · exact h1
      rw [List.cons_append, List.takeWhile_cons, List.takeWhile_cons, hc]
      simp [ih ⟨x, hx', hpx⟩]
    · have hc' : p c = false := Bool.eq_false_iff.mpr hc
      rw [List.cons_append, List.takeWhile_cons, List.takeWhile_cons, hc']
      simp

theorem mem_takeWhile_pred {l : List α} {x : α} (h : x ∈ l.takeWhile p) : p x = true := by
  induction l with
  | nil => simp [List.takeWhile] at h
  | cons c cs ih =>
    rw [List.takeWhile_cons] at h
    by_cases hc : p c = true
    · rw [if_pos hc] at h
      rcases List.mem_cons.mp h with h1 | h1
      · rw [h1]; exact hc
      · exact ih h1
    · rw [if_neg hc] at h; simp at h

end ListLemmas

namespace PyStr

theorem splitOnChar_ne_nil (sep : Char) : ∀ cs, splitOnChar sep cs ≠ []
  | [] => by simp [splitOnChar]
  | c :: cs => by
    rw [splitOnChar]
    cases h : splitOnChar sep cs with
    | nil => simp
    | cons g gs => by_cases hc : c = sep <;> simp [hc]

theorem splitOnChar_of_not_mem {sep : Char} {a : List Char} (h : sep ∉ a) :
    splitOnChar sep a = [a] := by
  induction a with
  | nil => rfl
  | cons c cs ih =>
    have hc : ¬ c = sep := fun hcs => h (by rw [hcs]; exact List.mem_cons_self _ _)
    have hcs : sep ∉ cs := fun hm => h (List.mem_cons_of_mem _ hm)
    rw [splitOnChar, ih hcs]
    simp [hc]

theorem splitOnChar_append {sep : Char} {a : List Char} (b : List Char) (h : sep ∉ a) :
    splitOnChar sep (a ++ sep :: b) = a :: splitOnChar sep b := by
  induction a with
  | nil =>
    rw [List.nil_append, splitOnChar]
    cases hb : splitOnChar sep b with
    | nil => exact absurd hb (splitOnChar_ne_nil sep b)
    | cons g gs => simp
  | cons c cs ih =>
    have hc : ¬ c = sep := fun hcs => h (by rw [hcs]; exact List.mem_cons_self _ _)
    have hcs : sep ∉ cs := fun hm => h (List.mem_cons_of_mem _ hm)
    rw [List.cons_append, splitOnChar, ih hcs]
    simp [hc]

theorem digitsVal_of_digits {a : List Char} (h1 : a ≠ []) (h2 : a.all Char.isDigit) :
    digitsVal a = some (a.foldl (fun n c => 10 * n + (c.toNat - 48)) 0) := by
  rw [digitsVal, if_pos ⟨h1, h2⟩]

theorem digitsVal_eq_some {a : List Char} {v : Nat} (h : digitsVal a = some v) :
    a ≠ [] ∧ a.all Char.isDigit = true := by
  rw [digitsVal] at h
  by_cases hc : a ≠ [] ∧ a.all Char.isDigit = true
  · exact hc
  · rw [if_neg hc] at h; cases h

theorem pyFloat_one {s a : List Char} (h : splitOnChar '.' s = [a]) :
    pyFloat s = (digitsVal a).map (fun n : Nat => (n : ℚ)) := by
  simp only [pyFloat, h]

theorem pyFloat_two {s a b : List Char} (h : splitOnChar '.' s = [a, b]) :
    pyFloat s =
      (if a = [] then (digitsVal b).map (fun f : Nat => (f : ℚ) / 10 ^ b.length)
       else if b = [] then (digitsVal a).map (fun n : Nat => (n : ℚ))
       else do
        let n ← digitsVal a
        let f ← digitsVal b
        pure ((n : ℚ) + (f : ℚ) / 10 ^ b.length)) := by
  simp only [pyFloat, h]

theorem pyFloat_other {s : List Char} {gs : List (List Char)}
    (h : splitOnChar '.' s = gs) (h1 : ∀ a, gs ≠ [a]) (h2 : ∀ a b, gs ≠ [a, b]) :
    pyFloat s = none := by
  rcases gs with _ | ⟨a, _ | ⟨b, _ | _⟩⟩
  · simp only [pyFloat, h]
  · exact absurd rfl (h1 a)
  · exact absurd rfl (h2 a b)
  · simp only [pyFloat, h]

theorem pyFloat_nonneg {s : List Char} {v : ℚ} (h : pyFloat s = some v) : 0 ≤ v := by
  rcases hs : splitOnChar '.' s with _ | ⟨a, _ | ⟨b, _ | _⟩⟩
  · rw [pyFloat_other hs (by simp) (by simp)] at h; cases h
  · rw [pyFloat_one hs] at h
    rcases hd : digitsVal a with _ | n <;> rw [hd] at h
    · cases h
    · simp only [Option.map_some'] at h
      cases Option.some.inj h
      positivity
  · rw [pyFloat_two hs] at h
    by_cases ha : a = []
    · rw [if_pos ha] at h
      rcases hd : digitsVal b with _ | f <;> rw [hd] at h
      · cases h
      · simp only [Option.map_some'] at h
        cases Option.some.inj h
        positivity
    · rw [if_neg ha] at h
      by_cases hb : b = []
      · rw [if_pos hb] at h
        rcases hd : digitsVal a with _ | n <;> rw [hd] at h
        · cases h
        · simp only [Option.map_some'] at h
          cases Option.some.inj h
          positivity
      · rw [if_neg hb] at h
        rcases hd : digitsVal a with _ | n <;> rw [hd] at h
        · cases h
        · rcases hd2 : digitsVal b with _ | f <;> rw [hd2] at h
          · cases h
          · have hv : (n : ℚ) + (f : ℚ) / 10 ^ b.length = v := by simpa using h
            rw [← hv]; positivity
  · rw [pyFloat_other hs (by simp) (by simp)] at h; cases h

end PyStr

namespace FFmpegWorker

open PyStr PyPath PyRe

theorem time_str_three {g : String} {hh mm ss : List Char}
    (hs : splitOnChar ':' g.data = [hh, mm, ss]) :
    time_str_to_seconds g =
      (do
        let hours ← digitsVal hh
        let minutes ← digitsVal mm
        let seconds ← pyFloat ss
        pure ((hours : ℚ) * 3600 + (minutes : ℚ) * 60 + seconds)) := by
  simp only [time_str_to_seconds, hs]

theorem time_str_two {g : String} {mm ss : List Char}
    (hs : splitOnChar ':' g.data = [mm, ss]) :
    time_str_to_seconds g =
      (do
        let minutes ← digitsVal mm
        let seconds ← pyFloat ss
        pure ((minutes : ℚ) * 60 + seconds)) := by
  simp only [time_str_to_seconds, hs]

theorem time_str_to_seconds_nonneg {g : String} {v : ℚ}
    (h : time_str_to_seconds g = some v) : 0 ≤ v := by
  rcases hs : splitOnChar ':' g.data with _ | ⟨a, _ | ⟨b, _ | ⟨c, _ | ds⟩⟩⟩
  · simp only [time_str_to_seconds, hs] at h
    cases Option.some.inj h; norm_num
  · simp only [time_str_to_seconds, hs] at h
    cases Option.some.inj h; norm_num
  · rw [time_str_two hs] at h
    rcases h1 : digitsVal a with _ | mv <;> rw [h1] at h
    · cases h
    · rcases h2 : pyFloat b with _ | sv <;> rw [h2] at h
      · cases h
      · have hv : (mv : ℚ) * 60 + sv = v := by simpa using h
        rw [← hv]
        have := pyFloat_nonneg h2
        positivity
  · rw [time_str_three hs] at h
    rcases h1 : digitsVal a with _ | hv2 <;> rw [h1] at h
    · cases h
    · rcases h2 : digitsVal b with _ | mv <;> rw [h2] at h
      · cases h
      · rcases h3 : pyFloat c with _ | sv <;> rw [h3] at h
        · cases h
        · have hv : (hv2 : ℚ) * 3600 + (mv : ℚ) * 60 + sv = v := by simpa using h
          rw [← hv]
          have := pyFloat_nonneg h3
          positivity
  · simp only [time_str_to_seconds, hs] at h
    cases Option.some.inj h; norm_num

theorem timeVal_getD_nonneg (g : String) : 0 ≤ (time_str_to_seconds g).getD 0 := by
  rcases h : time_str_to_seconds g with _ | v
  · simp
  · simpa using time_str_to_seconds_nonneg h

end FFmpegWorker

namespace FFmpegWorker

open PyStr PyPath PyRe

theorem not_mem_of_digit_run {ds : List Char} (hd : ∀ x ∈ ds, x.isDigit = true)
    {c : Char} (hc : c.isDigit = false) : c ∉ ds := fun hmem => by
  rw [hd c hmem] at hc; cases hc

theorem digitsVal_of_run {l : List Char} (hne : l ≠ [])
    (hd : ∀ x ∈ l, x.isDigit = true) : ∃ n, digitsVal l = some n :=
  ⟨_, digitsVal_of_digits hne (List.all_eq_true.mpr hd)⟩

theorem time_parse_of_runs {d1 d2 d3 d4 : List Char}
    (h1 : d1 ≠ []) (h2 : d2 ≠ []) (h3 : d3 ≠ []) (h4 : d4 ≠ [])
    (hd1 : ∀ x ∈ d1, x.isDigit = true) (hd2 : ∀ x ∈ d2, x.isDigit = true)
    (hd3 : ∀ x ∈ d3, x.isDigit = true) (hd4 : ∀ x ∈ d4, x.isDigit = true) :
    ∃ v, time_str_to_seconds ⟨d1 ++ ':' :: (d2 ++ ':' :: (d3 ++ '.' :: d4))⟩ = some v ∧ 0 ≤ v := by
  have hcolon : (':' : Char).isDigit = false := by decide
  have hdot : ('.' : Char).isDigit = false := by decide
  have hn1 : ':' ∉ d1 := not_mem_of_digit_run hd1 hcolon
  have hn2 : ':' ∉ d2 := not_mem_of_digit_run hd2 hcolon
  have hn3 : ':' ∉ d3 ++ '.' :: d4 := by
    intro hmem
    rcases List.mem_append.mp hmem with h | h
    · exact not_mem_of_digit_run hd3 hcolon h
    · rcases List.mem_cons.mp h with h | h
      · exact absurd h (by decide)
      · exact not_mem_of_digit_run hd4 hcolon h
  have hsplit : splitOnChar ':' (d1 ++ ':' :: (d2 ++ ':' :: (d3 ++ '.' :: d4)))
      = [d1, d2, d3 ++ '.' :: d4] := by
    rw [splitOnChar_append _ hn1, splitOnChar_append _ hn2, splitOnChar_of_not_mem hn3]
  obtain ⟨n1, hv1⟩ := digitsVal_of_run h1 hd1
  obtain ⟨n2, hv2⟩ := digitsVal_of_run h2 hd2
  obtain ⟨n3, hv3⟩ := digitsVal_of_run h3 hd3
  obtain ⟨n4, hv4⟩ := digitsVal_of_run h4 hd4
  have hpd3 : '.' ∉ d3 := not_mem_of_digit_run hd3 hdot
  have hpd4 : '.' ∉ d4 := not_mem_of_digit_run hd4 hdot
  have hsplit2 : splitOnChar '.' (d3 ++ '.' :: d4) = [d3, d4] := by
    rw [splitOnChar_append _ hpd3, splitOnChar_of_not_mem hpd4]
  have hpf : pyFloat (d3 ++ '.' :: d4) = some ((n3 : ℚ) + (n4 : ℚ) / 10 ^ d4.length) := by
    rw [pyFloat_two hsplit2, if_neg h3, if_neg h4, hv3, hv4]
    rfl
  have hts := time_str_three
    (g := ⟨d1 ++ ':' :: (d2 ++ ':' :: (d3 ++ '.' :: d4))⟩) hsplit
  refine ⟨(n1 : ℚ) * 3600 + (n2 : ℚ) * 60 + ((n3 : ℚ) + (n4 : ℚ) / 10 ^ d4.length), ?_, ?_⟩
  · rw [hts, hv1, hv2, hpf]
    rfl
  · positivity

theorem matchTimeGroup_parses {cs g : List Char} (hm : PyRe.matchTimeGroup cs = some g) :
    ∃ v, time_str_to_seconds ⟨g⟩ = some v ∧ 0 ≤ v := by
  simp only [PyRe.matchTimeGroup] at hm
  split at hm
  next r2 heq1 =>
    split at hm
    next r4 heq2 =>
      split at hm
      next r6 heq3 =>
        split at hm
        next hne =>
          obtain ⟨h1, h2, h3, h4⟩ := hne
          cases Option.some.inj hm
          exact time_parse_of_runs h1 h2 h3 h4
            (fun x hx => mem_takeWhile_pred hx) (fun x hx => mem_takeWhile_pred hx)
            (fun x hx => mem_takeWhile_pred hx) (fun x hx => mem_takeWhile_pred hx)
        next => cases hm
      next => cases hm
    next => cases hm
  next => cases hm

theorem searchLitGroup_parses {lit : List Char} :
    ∀ {s g : List Char}, searchLitGroup lit s = some g →
      ∃ v, time_str_to_seconds ⟨g⟩ = some v ∧ 0 ≤ v := by
  intro s
  induction s with
  | nil => intro g h; cases h
  | cons c rest ih =>
    intro g h
    rw [searchLitGroup] at h
    rcases hmg : (if lit.isPrefixOf (c :: rest) then matchTimeGroup ((c :: rest).drop lit.length) else none) with _ | g2
    · rw [hmg] at h
      exact ih h
    · rw [hmg] at h
      cases Option.some.inj h
      by_cases hp : lit.isPrefixOf (c :: rest)
      · rw [if_pos hp] at hmg
        exact matchTimeGroup_parses hmg
      · rw [if_neg hp] at hmg; cases hmg

/-- The group captured by the `Duration:` regex always parses through
`_time_str_to_seconds`, to a non-negative value: the `getD 0` default in
`totalDurationOf` is unreachable. -/
theorem searchDuration_parses {s g : String} (h : searchDuration s = some g) :
    ∃ v, time_str_to_seconds g = some v ∧ 0 ≤ v := by
  rcases hsl : searchLitGroup "Duration: ".data s.data with _ | gl
  · rw [searchDuration, hsl] at h; cases h
  · rw [searchDuration, hsl] at h
    cases Option.some.inj h
    exact searchLitGroup_parses hsl

/-- Likewise for the `time=` regex groups of `_read_stdout`. -/
theorem searchTime_parses {s g : String} (h : searchTime s = some g) :
    ∃ v, time_str_to_seconds g = some v ∧ 0 ≤ v := by
  rcases hsl : searchLitGroup "time=".data s.data with _ | gl
  · rw [searchTime, hsl] at h; cases h
  · rw [searchTime, hsl] at h
    cases Option.some.inj h
    exact searchLitGroup_parses hsl

/-- The probed total duration is never negative. -/
theorem totalDurationOf_nonneg (ps : String) : 0 ≤ totalDurationOf ps := by
  rw [totalDurationOf]
  rcases h : searchDuration ps with _ | g
  · norm_num
  · exact timeVal_getD_nonneg g

end FFmpegWorker

namespace FFmpegWorker

open PyStr PyPath PyRe

theorem mem_chunkEvents {total : ℚ} {fn : String} {c : Chunk} {e : Event}
    (h : e ∈ chunkEvents total fn c) :
    (∃ s g, c = Chunk.out s ∧ pyStrip s.data ≠ [] ∧ searchTime s = some g ∧ 0 < total ∧
      e = Event.progress ((time_str_to_seconds g).getD 0 / total) fn)
    ∨ (∃ s, c = Chunk.err s ∧ pyStrip s.data ≠ [] ∧
      e = Event.error ("⚠️ FFmpeg 输出: " ++ (⟨pyStrip s.data⟩ : String))) := by
  cases c with
  | out s =>
    rw [chunkEvents] at h
    by_cases hs : pyStrip s.data ≠ []
    · rw [if_pos hs] at h
      rcases hst : searchTime s with _ | g <;> simp only [hst] at h
      · exact absurd h (List.not_mem_nil e)
      · by_cases ht : total > 0
        · rw [if_pos ht] at h
          exact Or.inl ⟨s, g, rfl, hs, hst, ht, List.mem_singleton.mp h⟩
        · rw [if_neg ht] at h
          exact absurd h (List.not_mem_nil e)
    · rw [if_neg hs] at h
      exact absurd h (List.not_mem_nil e)
  | err s =>
    rw [chunkEvents] at h
    by_cases hs : pyStrip s.data ≠ []
    · rw [if_pos hs] at h
      exact Or.inr ⟨s, rfl, hs, List.mem_singleton.mp h⟩
    · rw [if_neg hs] at h
      exact absurd h (List.not_mem_nil e)

theorem mem_procEvents {total : ℚ} {fn : String} {p : ProcRun} {e : Event}
    (h : e ∈ procEvents total fn p) :
    (∃ s g, Chunk.out s ∈ p.chunks ∧ pyStrip s.data ≠ [] ∧ searchTime s = some g ∧ 0 < total ∧
      e = Event.progress ((time_str_to_seconds g).getD 0 / total) fn)
    ∨ (∃ s, Chunk.err s ∈ p.chunks ∧ pyStrip s.data ≠ [] ∧
      e = Event.error ("⚠️ FFmpeg 输出: " ++ (⟨pyStrip s.data⟩ : String))) := by
  obtain ⟨c, hc, he⟩ := List.mem_flatMap.mp h
  rcases mem_chunkEvents he with ⟨s, g, rfl, hs, hst, ht, rfl⟩ | ⟨s, rfl, hs, rfl⟩
  · exact Or.inl ⟨s, g, hc, hs, hst, ht, rfl⟩
  · exact Or.inr ⟨s, hc, hs, rfl⟩

theorem finished_not_mem_procEvents {total : ℚ} {fn pa : String} {el : ℚ} {p : ProcRun} :
    Event.finished pa el ∉ procEvents total fn p := by
  intro h
  rcases mem_procEvents h with ⟨_, _, _, _, _, _, he⟩ | ⟨_, _, _, he⟩ <;> cases he

end FFmpegWorker

namespace FFmpegWorker

open PyStr PyPath PyRe

theorem run_mem_events {inp outd : String} {l : Bool} {env : WorkerEnv} {e : Event}
    (h : e ∈ (run inp outd l env).events) :
    (env.inputExists = false ∧ e = Event.error ("❌ 输入文件不存在: " ++ inp)) ∨
    (env.inputExists = true ∧
      ((env.siblingExists = true ∧
         e ∈ procEvents (totalDurationOf env.probeStderr) (basename inp) env.mergeProc) ∨
       (env.siblingExists = true ∧ env.cancelAfterMerge = false ∧
         e ∈ procEvents (totalDurationOf env.probeStderr) (basename inp) env.extractProc) ∨
       (env.siblingExists = false ∧
         e ∈ procEvents (totalDurationOf env.probeStderr) (basename inp) env.directProc) ∨
       (e = Event.finished (outputPathOf inp outd) env.elapsed ∧ env.cancelAfterFinal = false ∧
         ((env.siblingExists = true ∧ env.cancelAfterMerge = false ∧ env.extractProc.exitCode = 0) ∨
          (env.siblingExists = false ∧ env.directProc.exitCode = 0))) ∨
       (e = Event.error "❌ 音频提取失败" ∧ env.siblingExists = true ∧ env.cancelAfterMerge = false ∧
         env.cancelAfterFinal = false ∧ env.extractProc.exitCode ≠ 0) ∨
       (e = Event.error "❌ 直接转换失败" ∧ env.siblingExists = false ∧
         env.cancelAfterFinal = false ∧ env.directProc.exitCode ≠ 0))) := by
  cases hin : env.inputExists with
  | false =>
    simp only [run, hin, Bool.not_false, if_true] at h
    exact Or.inl ⟨rfl, List.mem_singleton.mp h⟩
  | true =>
    refine Or.inr ⟨rfl, ?_⟩
    cases hsib : env.siblingExists with
    | true =>
      cases hc1 : env.cancelAfterMerge with
      | true =>
        simp only [run, hin, hsib, hc1, Bool.not_true, Bool.false_eq_true, if_false, if_true,
          eq_self_iff_true, ite_true, ite_false] at h
        exact Or.inl ⟨rfl, h⟩
      | false =>
        cases hcf : env.cancelAfterFinal with
        | true =>
          simp only [run, hin, hsib, hc1, hcf, Bool.not_true, Bool.false_eq_true,
            Bool.true_eq_false, if_false, if_true, eq_self_iff_true, ite_true, ite_false,
            List.mem_append] at h
          rcases h with h | h
          · exact Or.inl ⟨rfl, h⟩
          · exact Or.inr (Or.inl ⟨rfl, rfl, h⟩)
        | false =>
          by_cases hex : env.extractProc.exitCode = 0
          · simp only [run, hin, hsib, hc1, hcf, Bool.not_true, Bool.false_eq_true,
              Bool.true_eq_false, if_false, if_true, eq_self_iff_true, ite_true, ite_false,
              if_pos hex, List.mem_append, List.mem_singleton] at h
            rcases h with (h | h) | h
            · exact Or.inl ⟨rfl, h⟩
            · exact Or.inr (Or.inl ⟨rfl, rfl, h⟩)
            · exact Or.inr (Or.inr (Or.inr (Or.inl ⟨h, rfl, Or.inl ⟨rfl, rfl, hex⟩⟩)))
          · simp only [run, hin, hsib, hc1, hcf, Bool.not_true, Bool.false_eq_true,
              Bool.true_eq_false, if_false, if_true, eq_self_iff_true, ite_true, ite_false,
              if_neg hex, List.mem_append, List.mem_singleton] at h
            rcases h with (h | h) | h
            · exact Or.inl ⟨rfl, h⟩
            · exact Or.inr (Or.inl ⟨rfl, rfl, h⟩)
            · exact Or.inr (Or.inr (Or.inr (Or.inr (Or.inl ⟨h, rfl, rfl, rfl, hex⟩))))
    | false =>
      cases hcf : env.cancelAfterFinal with
      | true =>
        simp only [run, hin, hsib, hcf, Bool.not_true, Bool.false_eq_true, Bool.true_eq_false,
          if_false, if_true, eq_self_iff_true, ite_true, ite_false] at h
        exact Or.inr (Or.inr (Or.inl ⟨rfl, h⟩))
      | false =>
        by_cases hex : env.directProc.exitCode = 0
        · simp only [run, hin, hsib, hcf, Bool.not_true, Bool.false_eq_true, Bool.true_eq_false,
            if_false, if_true, eq_self_iff_true, ite_true, ite_false, if_pos hex,
            List.mem_append, List.mem_singleton] at h
          rcases h with h | h
          · exact Or.inr (Or.inr (Or.inl ⟨rfl, h⟩))
          · exact Or.inr (Or.inr (Or.inr (Or.inl ⟨h, rfl, Or.inr ⟨rfl, hex⟩⟩)))
        · simp only [run, hin, hsib, hcf, Bool.not_true, Bool.false_eq_true, Bool.true_eq_false,
            if_false, if_true, eq_self_iff_true, ite_true, ite_false, if_neg hex,
            List.mem_append, List.mem_singleton] at h
          rcases h with h | h
          · exact Or.inr (Or.inr (Or.inl ⟨rfl, h⟩))
          · exact Or.inr (Or.inr (Or.inr (Or.inr (Or.inr ⟨h, rfl, rfl, hex⟩))))

end FFmpegWorker

namespace FFmpegWorker

open PyStr PyPath PyRe

/-- Origin of every progress event of a `run`: its filename is the
basename of the original input path; its fraction divides a `time=` value
parsed from some subprocess stdout chunk by the total duration probed
from the original input — and that duration is positive. -/
theorem run_progress_origin {inp outd : String} {l : Bool} {env : WorkerEnv} {f : ℚ} {n : String}
    (h : Event.progress f n ∈ (run inp outd l env).events) :
    n = basename inp ∧ 0 < totalDurationOf env.probeStderr ∧
      ∃ s g, Chunk.out s ∈ allChunks env ∧ searchTime s = some g ∧
        f = (time_str_to_seconds g).getD 0 / totalDurationOf env.probeStderr := by
  rcases run_mem_events h with ⟨_, he⟩ | ⟨_, hcase⟩
  · cases he
  · have hproc : ∃ pr : ProcRun, pr.chunks.Sublist (allChunks env) ∧
        Event.progress f n ∈ procEvents (totalDurationOf env.probeStderr) (basename inp) pr := by
      rcases hcase with ⟨_, h⟩ | ⟨_, _, h⟩ | ⟨_, h⟩ | ⟨he, _⟩ | ⟨he, _⟩ | ⟨he, _⟩
      · exact ⟨env.mergeProc, by simp [allChunks], h⟩
      · exact ⟨env.extractProc, by simp [allChunks], h⟩
      · exact ⟨env.directProc, by simp [allChunks], h⟩
      · cases he
      · cases he
      · cases he
    obtain ⟨pr, hsub, hmem⟩ := hproc
    rcases mem_procEvents hmem with ⟨s, g, hc, _, hst, ht, he⟩ | ⟨s, _, _, he⟩
    · obtain ⟨rfl, rfl⟩ := Event.progress.inj he
      exact ⟨rfl, ht, s, g, hsub.mem hc, hst, rfl⟩
    · cases he

/-- Origin of every error event of a `run`: it is the missing-input
message, one of the two step-failure messages (with the corresponding
non-zero exit), or a forwarded non-blank stderr chunk. -/
theorem run_error_origin {inp outd : String} {l : Bool} {env : WorkerEnv} {m : String}
    (h : Event.error m ∈ (run inp outd l env).events) :
    (env.inputExists = false ∧ m = "❌ 输入文件不存在: " ++ inp) ∨
    (env.siblingExists = true ∧ env.extractProc.exitCode ≠ 0 ∧ m = "❌ 音频提取失败") ∨
    (env.siblingExists = false ∧ env.directProc.exitCode ≠ 0 ∧ m = "❌ 直接转换失败") ∨
    (∃ s, Chunk.err s ∈ allChunks env ∧ pyStrip s.data ≠ [] ∧
      m = "⚠️ FFmpeg 输出: " ++ (⟨pyStrip s.data⟩ : String)) := by
  rcases run_mem_events h with ⟨hin, he⟩ | ⟨hin, hcase⟩
  · exact Or.inl ⟨hin, Event.error.inj he⟩
  · have hproc : (∃ pr : ProcRun, pr.chunks.Sublist (allChunks env) ∧
        Event.error m ∈ procEvents (totalDurationOf env.probeStderr) (basename inp) pr) ∨
        (env.siblingExists = true ∧ env.extractProc.exitCode ≠ 0 ∧ m = "❌ 音频提取失败") ∨
        (env.siblingExists = false ∧ env.directProc.exitCode ≠ 0 ∧ m = "❌ 直接转换失败") := by
      rcases hcase with ⟨_, h⟩ | ⟨_, _, h⟩ | ⟨_, h⟩ | ⟨he, _⟩ | ⟨he, h1, h2, h3, h4⟩ | ⟨he, h1, h2, h3⟩
      · exact Or.inl ⟨env.mergeProc, by simp [allChunks], h⟩
      · exact Or.inl ⟨env.extractProc, by simp [allChunks], h⟩
      · exact Or.inl ⟨env.directProc, by simp [allChunks], h⟩
      · cases he
      · exact Or.inr (Or.inl ⟨h1, h4, Event.error.inj he⟩)
      · exact Or.inr (Or.inr ⟨h1, h3, Event.error.inj he⟩)
    rcases hproc with ⟨pr, hsub, hmem⟩ | hrest
    · rcases mem_procEvents hmem with ⟨_, _, _, _, _, _, he⟩ | ⟨s, hc, hs, he⟩
      · cases he
      · exact Or.inr (Or.inr (Or.inr ⟨s, hsub.mem hc, hs, Event.error.inj he⟩))
    · rcases hrest with ha | hb
      · exact Or.inr (Or.inl ha)
      · exact Or.inr (Or.inr (Or.inl hb))

end FFmpegWorker

namespace FFmpegWorker

open PyStr PyPath PyRe

/-- Origin of every finished event of a `run`: the input existed, the
cancellation flag was still clear at the final check, the payload is the
derived output path with the wall-clock elapsed time, and the final
subprocess of the branch taken exited with code 0. -/
theorem run_finished_origin {inp outd : String} {l : Bool} {env : WorkerEnv} {pa : String} {el : ℚ}
    (h : Event.finished pa el ∈ (run inp outd l env).events) :
    env.inputExists = true ∧ env.cancelAfterFinal = false ∧
      pa = outputPathOf inp outd ∧ el = env.elapsed ∧
      (env.siblingExists = true → env.cancelAfterMerge = false ∧ env.extractProc.exitCode = 0) ∧
      (env.siblingExists = false → env.directProc.exitCode = 0) := by
  rcases run_mem_events h with ⟨_, he⟩ | ⟨hin, hcase⟩
  · cases he
  · rcases hcase with ⟨_, h⟩ | ⟨_, _, h⟩ | ⟨_, h⟩ | ⟨he, hcf, hsucc⟩ | ⟨he, _⟩ | ⟨he, _⟩
    · exact absurd h finished_not_mem_procEvents
    · exact absurd h finished_not_mem_procEvents
    · exact absurd h finished_not_mem_procEvents
    · obtain ⟨rfl, rfl⟩ := Event.finished.inj he
      refine ⟨hin, hcf, rfl, rfl, ?_, ?_⟩
      · intro hsib
        rcases hsucc with ⟨_, hc1, hex⟩ | ⟨hns, _⟩
        · exact ⟨hc1, hex⟩
        · rw [hsib] at hns; cases hns
      · intro hsib
        rcases hsucc with ⟨hs, _, _⟩ | ⟨_, hex⟩
        · rw [hsib] at hs; cases hs
        · exact hex
    · cases he
    · cases he

/-- On the sibling-merge branch, a clean (uncancelled) extraction with
exit code 0 emits the finished event. -/
theorem run_finished_sibling {inp outd : String} {l : Bool} {env : WorkerEnv}
    (hin : env.inputExists = true) (hsib : env.siblingExists = true)
    (hc1 : env.cancelAfterMerge = false) (hcf : env.cancelAfterFinal = false)
    (hex : env.extractProc.exitCode = 0) :
    Event.finished (outputPathOf inp outd) env.elapsed ∈ (run inp outd l env).events := by
  simp only [run, hin, hsib, hc1, hcf, Bool.not_true, Bool.false_eq_true, Bool.true_eq_false,
    if_false, if_true, eq_self_iff_true, ite_true, ite_false, if_pos hex, List.mem_append,
    List.mem_singleton]
  exact Or.inr trivial

/-- On the direct branch, a clean (uncancelled) conversion with exit
code 0 emits the finished event. -/
theorem run_finished_direct {inp outd : String} {l : Bool} {env : WorkerEnv}
    (hin : env.inputExists = true) (hsib : env.siblingExists = false)
    (hcf : env.cancelAfterFinal = false) (hex : env.directProc.exitCode = 0) :
    Event.finished (outputPathOf inp outd) env.elapsed ∈ (run inp outd l env).events := by
  simp only [run, hin, hsib, hcf, Bool.not_true, Bool.false_eq_true, Bool.true_eq_false,
    if_false, if_true, eq_self_iff_true, ite_true, ite_false, if_pos hex, List.mem_append,
    List.mem_singleton]
  exact Or.inr trivial

end FFmpegWorker

namespace FFmpegWorker

open PyStr PyPath PyRe

theorem progressFracs_append (a b : List Event) :
    progressFracs (a ++ b) = progressFracs a ++ progressFracs b := by
  simp only [progressFracs, List.filterMap_append]

theorem progressFracs_singleton_finished (pa : String) (el : ℚ) :
    progressFracs [Event.finished pa el] = [] := rfl

theorem progressFracs_singleton_error (m : String) :
    progressFracs [Event.error m] = [] := rfl

theorem progressFracs_flatMap {total : ℚ} (htotal : total > 0) (fn : String) :
    ∀ cs : List Chunk,
      progressFracs (cs.flatMap (chunkEvents total fn)) =
        (chunkTimes cs).map (fun t => t / total)
  | [] => rfl
  | c :: cs => by
    rw [List.flatMap_cons, progressFracs_append, progressFracs_flatMap htotal fn cs]
    have hhead : progressFracs (chunkEvents total fn c) =
        ((chunkTime c).map (fun t => t / total)).toList := by
      cases c with
      | out s =>
        by_cases hs : pyStrip s.data ≠ []
        · rcases hst : searchTime s with _ | g
          · simp [chunkEvents, chunkTime, hs, hst, progressFracs]
          · simp [chunkEvents, chunkTime, hs, hst, progressFracs, htotal]
        · simp [chunkEvents, chunkTime, hs, progressFracs]
      | err s =>
        by_cases hs : pyStrip s.data ≠ [] <;>
          simp [chunkEvents, chunkTime, hs, progressFracs]
    rw [hhead]
    simp only [chunkTimes, List.filterMap_cons]
    rcases hct : chunkTime c with _ | t
    · simp [hct]
    · simp [hct]

theorem progressFracs_procEvents {total : ℚ} (htotal : total > 0) (fn : String) (p : ProcRun) :
    progressFracs (procEvents total fn p) = (chunkTimes p.chunks).map (fun t => t / total) :=
  progressFracs_flatMap htotal fn p.chunks

theorem chunkTimes_nonneg {cs : List Chunk} : ∀ t ∈ chunkTimes cs, 0 ≤ t := by
  intro t ht
  obtain ⟨c, _, hct⟩ := List.mem_filterMap.mp ht
  cases c with
  | out s =>
    rw [chunkTime] at hct
    by_cases hs : pyStrip s.data ≠ []
    · rw [if_pos hs] at hct
      rcases hst : searchTime s with _ | g <;> rw [hst] at hct
      · cases hct
      · simp only [Option.map_some'] at hct
        cases Option.some.inj hct
        exact timeVal_getD_nonneg g
    · rw [if_neg hs] at hct; cases hct
  | err s => cases hct

/-- The progress fractions a `run` emits, when the probed duration is
positive: the parsed times of the chunks that actually fired, each
divided by that duration, in order. -/
theorem run_progressFracs {inp outd : String} {l : Bool} {env : WorkerEnv}
    (htotal : totalDurationOf env.probeStderr > 0) :
    progressFracs (run inp outd l env).events =
      (chunkTimes (activeChunks env)).map (fun t => t / totalDurationOf env.probeStderr) := by
  cases hin : env.inputExists with
  | false =>
    simp only [run, activeChunks, hin, Bool.not_false, if_true]
    rfl
  | true =>
    cases hsib : env.siblingExists with
    | true =>
      cases hc1 : env.cancelAfterMerge with
      | true =>
        simp only [run, activeChunks, hin, hsib, hc1, Bool.not_true, Bool.false_eq_true,
          if_false, if_true, eq_self_iff_true, ite_true, ite_false]
        rw [procEvents] at *
        rw [progressFracs_flatMap htotal, List.append_nil]
      | false =>
        have htail : progressFracs (procEvents (totalDurationOf env.probeStderr) (basename inp) env.mergeProc ++
            procEvents (totalDurationOf env.probeStderr) (basename inp) env.extractProc) =
            (chunkTimes (env.mergeProc.chunks ++ env.extractProc.chunks)).map
              (fun t => t / totalDurationOf env.probeStderr) := by
          rw [progressFracs_append, progressFracs_procEvents htotal, progressFracs_procEvents htotal]
          simp only [chunkTimes, List.filterMap_append, List.map_append]
        cases hcf : env.cancelAfterFinal with
        | true =>
          simp only [run, activeChunks, hin, hsib, hc1, hcf, Bool.not_true, Bool.false_eq_true,
            Bool.true_eq_false, if_false, if_true, eq_self_iff_true, ite_true, ite_false]
          exact htail
        | false =>
          by_cases hex : env.extractProc.exitCode = 0
          · simp only [run, activeChunks, hin, hsib, hc1, hcf, Bool.not_true, Bool.false_eq_true,
              Bool.true_eq_false, if_false, if_true, eq_self_iff_true, ite_true, ite_false,
              if_pos hex]
            rw [List.append_assoc, progressFracs_append, progressFracs_append,
              progressFracs_singleton_finished, List.append_nil, ← progressFracs_append]
            exact htail
          · simp only [run, activeChunks, hin, hsib, hc1, hcf, Bool.not_true, Bool.false_eq_true,
              Bool.true_eq_false, if_false, if_true, eq_self_iff_true, ite_true, ite_false,
              if_neg hex]
            rw [List.append_assoc, progressFracs_append, progressFracs_append,
              progressFracs_singleton_error, List.append_nil, ← progressFracs_append]
            exact htail
    | false =>
      cases hcf : env.cancelAfterFinal with
      | true =>
        simp only [run, activeChunks, hin, hsib, hcf, Bool.not_true, Bool.false_eq_true,
          Bool.true_eq_false, if_false, if_true, eq_self_iff_true, ite_true, ite_false]
        exact progressFracs_procEvents htotal _ _
      | false =>
        by_cases hex : env.directProc.exitCode = 0
        · simp only [run, activeChunks, hin, hsib, hcf, Bool.not_true, Bool.false_eq_true,
            Bool.true_eq_false, if_false, if_true, eq_self_iff_true, ite_true, ite_false,
            if_pos hex]
          rw [progressFracs_append, progressFracs_singleton_finished, List.append_nil]
          exact progressFracs_procEvents htotal _ _
        · simp only [run, activeChunks, hin, hsib, hcf, Bool.not_true, Bool.false_eq_true,
            Bool.true_eq_false, if_false, if_true, eq_self_iff_true, ite_true, ite_false,
            if_neg hex]
          rw [progressFracs_append, progressFracs_singleton_error, List.append_nil]
          exact progressFracs_procEvents htotal _ _

end FFmpegWorker

namespace PyPath

theorem mem_basenameL_ne_slash {cs : List Char} : ∀ c ∈ basenameL cs, c ≠ '/' := by
  intro c hc
  rw [basenameL] at hc
  have h1 : c ∈ List.takeWhile (fun c => decide (c ≠ '/')) cs.reverse := List.mem_reverse.mp hc
  exact of_decide_eq_true
    (@mem_takeWhile_pred Char (fun c => decide (c ≠ '/')) cs.reverse c h1)

theorem basenameL_no_slash {cs : List Char} (h : ∀ c ∈ cs, c ≠ '/') : basenameL cs = cs := by
  rw [basenameL, takeWhile_all, List.reverse_reverse]
  intro x hx
  exact decide_eq_true (h x (List.mem_reverse.mp hx))

theorem splitextStemL_of_shape {stem ext : List Char}
    (hsl : ∀ c ∈ stem, c ≠ '/') (hel : ∀ c ∈ ext, c ≠ '/')
    (hdot : '.' ∉ ext) (hstem : ∃ c ∈ stem, c ≠ '.') :
    splitextStemL (stem ++ '.' :: ext) = stem := by
  have hslash : ∀ c ∈ stem ++ '.' :: ext, c ≠ '/' := by
    intro c hc
    rcases List.mem_append.mp hc with h | h
    · exact hsl c h
    · rcases List.mem_cons.mp h with h | h
      · rw [h]; decide
      · exact hel c h
  have hb : basenameL (stem ++ '.' :: ext) = stem ++ '.' :: ext := basenameL_no_slash hslash
  have hlead : (stem ++ '.' :: ext).takeWhile (fun c => c = '.') =
      stem.takeWhile (fun c => c = '.') := by
    obtain ⟨c, hc, hcd⟩ := hstem
    exact takeWhile_append_of_exists_not _ ⟨c, hc, decide_eq_false hcd⟩
  have hpre : stem.takeWhile (fun c => c = '.') <+: stem :=
    List.takeWhile_prefix _
  have hlen : (stem.takeWhile (fun c => c = '.')).length ≤ stem.length := hpre.length_le
  have hrest : (stem ++ '.' :: ext).drop (stem.takeWhile (fun c => c = '.')).length =
      stem.dropWhile (fun c => c = '.') ++ '.' :: ext := by
    rw [List.drop_append_eq_append_drop, Nat.sub_eq_zero_of_le hlen, List.drop_zero,
      drop_length_takeWhile]
  have hcore : '.' :: ext ⊆ stem.dropWhile (fun c => c = '.') ++ '.' :: ext :=
    List.subset_append_right _ _
  have hcontains : (stem.dropWhile (fun c => c = '.') ++ '.' :: ext).contains '.' = true :=
    List.elem_iff.mpr (List.mem_append_right _ (List.mem_cons_self _ _))
  have hdw : ((stem.dropWhile (fun c => c = '.') ++ '.' :: ext).reverse.dropWhile
      (fun c => c ≠ '.')) = '.' :: (stem.dropWhile (fun c => c = '.')).reverse := by
    have hrev : (stem.dropWhile (fun c => c = '.') ++ '.' :: ext).reverse =
        ext.reverse ++ '.' :: (stem.dropWhile (fun c => c = '.')).reverse := by
      rw [List.reverse_append, List.reverse_cons, List.append_assoc, List.singleton_append]
    rw [hrev]
    refine dropWhile_append_stop _ ?_ (by decide)
    intro x hx
    refine decide_eq_true ?_
    intro hxd
    exact hdot (by rw [← hxd]; exact List.mem_reverse.mp hx)
  rw [splitextStemL]
  simp only [hb, hlead, hrest, hdw, hcontains, if_true, List.tail_cons, List.reverse_reverse]
  rw [List.length_append]
  have hlen2 : (stem ++ '.' :: ext).length - (stem ++ '.' :: ext).length = 0 := Nat.sub_self _
  simp only [List.length_append] at hlen2
  rw [hlen2, List.take_zero, List.nil_append]
  exact List.takeWhile_append_dropWhile _ _

theorem basename_data (p : String) : (basename p).data = basenameL p.data := rfl

theorem splitextStem_of_shape {b stem ext : String}
    (hb : b.data = stem.data ++ '.' :: ext.data)
    (hsl : ∀ c ∈ stem.data, c ≠ '/') (hel : ∀ c ∈ ext.data, c ≠ '/')
    (hdot : '.' ∉ ext.data) (hstem : ∃ c ∈ stem.data, c ≠ '.') :
    splitextStem b = stem := by
  have : splitextStemL b.data = stem.data := by
    rw [hb]
    exact splitextStemL_of_shape hsl hel hdot hstem
  show (⟨splitextStemL b.data⟩ : String) = stem
  rw [this]

end PyPath

namespace FFmpegWorker

open PyStr PyPath PyRe

/-- The output path derivation, for any input whose basename decomposes
as `stem ++ "." ++ ext` with a dot-free, slash-free, non-empty extension
and a stem containing at least one non-dot character: the stem (spaces
and special characters included) is kept and the extension is replaced
by `.mp3`, joined onto the output directory. -/
theorem outputPathOf_shape {p outd stem ext : String}
    (hb : (basename p).data = stem.data ++ '.' :: ext.data)
    (hdot : '.' ∉ ext.data) (hstem : ∃ c ∈ stem.data, c ≠ '.') :
    outputPathOf p outd = pathJoin outd (stem ++ ".mp3") := by
  have hnsl : ∀ c ∈ (basename p).data, c ≠ '/' := by
    rw [basename_data]; exact fun c hc => mem_basenameL_ne_slash c hc
  have hsl : ∀ c ∈ stem.data, c ≠ '/' := fun c hc =>
    hnsl c (by rw [hb]; exact List.mem_append_left _ hc)
  have hel : ∀ c ∈ ext.data, c ≠ '/' := fun c hc =>
    hnsl c (by rw [hb]; exact List.mem_append_right _ (List.mem_cons_of_mem _ hc))
  rw [outputPathOf, splitextStem_of_shape hb hsl hel hdot hstem]

end FFmpegWorker

namespace FFmpegWorker

open PyStr PyPath PyRe

/-- Missing input emits the missing-input error. -/
theorem run_error_missing {inp outd : String} {l : Bool} {env : WorkerEnv}
    (hin : env.inputExists = false) :
    (run inp outd l env).events = [Event.error ("❌ 输入文件不存在: " ++ inp)] := by
  simp only [run, hin, Bool.not_false, if_true]

/-- A failed (uncancelled) extraction emits the extraction-failure error. -/
theorem run_error_sibling {inp outd : String} {l : Bool} {env : WorkerEnv}
    (hin : env.inputExists = true) (hsib : env.siblingExists = true)
    (hc1 : env.cancelAfterMerge = false) (hcf : env.cancelAfterFinal = false)
    (hex : env.extractProc.exitCode ≠ 0) :
    Event.error "❌ 音频提取失败" ∈ (run inp outd l env).events := by
  simp only [run, hin, hsib, hc1, hcf, Bool.not_true, Bool.false_eq_true, Bool.true_eq_false,
    if_false, if_true, eq_self_iff_true, ite_true, ite_false, if_neg hex, List.mem_append,
    List.mem_singleton]
  exact Or.inr trivial

/-- A failed (uncancelled) direct conversion emits the conversion-failure error. -/
theorem run_error_direct {inp outd : String} {l : Bool} {env : WorkerEnv}
    (hin : env.inputExists = true) (hsib : env.siblingExists = false)
    (hcf : env.cancelAfterFinal = false) (hex : env.directProc.exitCode ≠ 0) :
    Event.error "❌ 直接转换失败" ∈ (run inp outd l env).events := by
  simp only [run, hin, hsib, hcf, Bool.not_true, Bool.false_eq_true, Bool.true_eq_false,
    if_false, if_true, eq_self_iff_true, ite_true, ite_false, if_neg hex, List.mem_append,
    List.mem_singleton]
  exact Or.inr trivial

end FFmpegWorker

open PyStr PyPath PyRe FFmpegWorker

/-- C4: for every input path that does not exist on the filesystem,
`run` emits exactly one Error event and zero Finished events and zero
Progress events (its whole event trace is the single missing-input
error). -/
theorem C4_missing_input_events (inp outd : String) (l : Bool) (env : WorkerEnv)
    (h : env.inputExists = false) :
    (run inp outd l env).events = [Event.error ("❌ 输入文件不存在: " ++ inp)] ∧
    (run inp outd l env).events.countP Event.isError = 1 ∧
    (run inp outd l env).events.countP Event.isFinished = 0 ∧
    (run inp outd l env).events.countP Event.isProgress = 0 := by
  have he : (run inp outd l env).events = [Event.error ("❌ 输入文件不存在: " ++ inp)] := by
    simp only [run, h, Bool.not_false, if_true]
  refine ⟨he, ?_, ?_, ?_⟩ <;> rw [he] <;> rfl

/-- C4 witness: a concrete missing-input run. -/
theorem C4_missing_input_events_witness :
    ((⟨"ffmpeg", false, false, "", ⟨[], 0⟩, ⟨[], 0⟩, ⟨[], 0⟩, false, false, 7⟩ : WorkerEnv).inputExists = false) ∧
    ((run "a.mp4" "/outdir" false
        ⟨"ffmpeg", false, false, "", ⟨[], 0⟩, ⟨[], 0⟩, ⟨[], 0⟩, false, false, 7⟩).events
      = [Event.error ("❌ 输入文件不存在: " ++ "a.mp4")] ∧
     (run "a.mp4" "/outdir" false
        ⟨"ffmpeg", false, false, "", ⟨[], 0⟩, ⟨[], 0⟩, ⟨[], 0⟩, false, false, 7⟩).events.countP Event.isError = 1 ∧
     (run "a.mp4" "/outdir" false
        ⟨"ffmpeg", false, false, "", ⟨[], 0⟩, ⟨[], 0⟩, ⟨[], 0⟩, false, false, 7⟩).events.countP Event.isFinished = 0 ∧
     (run "a.mp4" "/outdir" false
        ⟨"ffmpeg", false, false, "", ⟨[], 0⟩, ⟨[], 0⟩, ⟨[], 0⟩, false, false, 7⟩).events.countP Event.isProgress = 0) :=
  ⟨rfl, C4_missing_input_events "a.mp4" "/outdir" false _ rfl⟩

/-- C5: `_time_str_to_seconds` maps `"00:01:30.50"` to `90.5` and
`"1:02:03.25"` to `3723.25`; in general a three-part `H:M:S.ff` string of
numeric parts parses to `hours * 3600 + minutes * 60 + seconds`, and a
two-part `M:S.ff` string to `minutes * 60 + seconds`. -/
theorem C5_time_str_to_seconds_values :
    time_str_to_seconds "00:01:30.50" = some (90.5 : ℚ) ∧
    time_str_to_seconds "1:02:03.25" = some (3723.25 : ℚ) ∧
    (∀ (hh mm ss : List Char) (hv mv : Nat) (sv : ℚ),
      digitsVal hh = some hv → digitsVal mm = some mv → pyFloat ss = some sv → ':' ∉ ss →
      time_str_to_seconds ⟨hh ++ ':' :: (mm ++ ':' :: ss)⟩ =
        some ((hv : ℚ) * 3600 + (mv : ℚ) * 60 + sv)) ∧
    (∀ (mm ss : List Char) (mv : Nat) (sv : ℚ),
      digitsVal mm = some mv → pyFloat ss = some sv → ':' ∉ ss →
      time_str_to_seconds ⟨mm ++ ':' :: ss⟩ = some ((mv : ℚ) * 60 + sv)) := by
  have hdig : ∀ (l : List Char) (v : Nat), digitsVal l = some v → ':' ∉ l := by
    intro l v hv
    obtain ⟨_, hall⟩ := digitsVal_eq_some hv
    exact not_mem_of_digit_run (List.all_eq_true.mp hall) (by decide)
  refine ⟨?_, ?_, ?_, ?_⟩
  · simp [time_str_to_seconds, splitOnChar, digitsVal, pyFloat]
    norm_num
  · simp [time_str_to_seconds, splitOnChar, digitsVal, pyFloat]
    norm_num
  · intro hh mm ss hv mv sv h1 h2 h3 h4
    have hsplit : splitOnChar ':' (hh ++ ':' :: (mm ++ ':' :: ss)) = [hh, mm, ss] := by
      rw [splitOnChar_append _ (hdig hh hv h1), splitOnChar_append _ (hdig mm mv h2),
        splitOnChar_of_not_mem h4]
    rw [time_str_three (g := ⟨hh ++ ':' :: (mm ++ ':' :: ss)⟩) hsplit, h1, h2, h3]
    rfl
  · intro mm ss mv sv h2 h3 h4
    have hsplit : splitOnChar ':' (mm ++ ':' :: ss) = [mm, ss] := by
      rw [splitOnChar_append _ (hdig mm mv h2), splitOnChar_of_not_mem h4]
    rw [time_str_two (g := ⟨mm ++ ':' :: ss⟩) hsplit, h2, h3]
    rfl

/-- C5 witness: the general three-part form evaluated at `2:03:04.5`. -/
theorem C5_time_str_to_seconds_values_witness :
    digitsVal "2".data = some 2 ∧ digitsVal "03".data = some 3 ∧
    pyFloat "04.5".data = some (4.5 : ℚ) ∧ ':' ∉ "04.5".data ∧
    time_str_to_seconds ⟨"2".data ++ ':' :: ("03".data ++ ':' :: "04.5".data)⟩ =
      some ((2 : ℚ) * 3600 + (3 : ℚ) * 60 + (4.5 : ℚ)) := by
  have h1 : digitsVal "2".data = some 2 := by decide
  have h2 : digitsVal "03".data = some 3 := by decide
  have h3 : pyFloat "04.5".data = some (4.5 : ℚ) := by
    simp [pyFloat, splitOnChar, digitsVal]
    norm_num
  have h4 : ':' ∉ "04.5".data := by decide
  exact ⟨h1, h2, h3, h4, C5_time_str_to_seconds_values.2.2.1 _ _ _ _ _ _ h1 h2 h3 h4⟩

/-- C6: for every input path whose basename is `stem.ext` (extension
non-empty, dot-free; stem arbitrary — spaces and special characters
included — with at least one non-dot character), the derived output file
path is the output directory joined with the basename with its extension
replaced by `.mp3`. -/
theorem C6_output_path_derivation (p outd stem ext : String)
    (hb : (basename p).data = stem.data ++ '.' :: ext.data)
    (hdot : '.' ∉ ext.data) (hstem : ∃ c ∈ stem.data, c ≠ '.') :
    outputPathOf p outd = pathJoin outd (stem ++ ".mp3") :=
  outputPathOf_shape hb hdot hstem

/-- C6 witness: `"clip one.mp4"` (with a space) in directory `/out`
yields `/out/clip one.mp3`. -/
theorem C6_output_path_derivation_witness :
    (basename "clip one.mp4").data = "clip one".data ++ '.' :: "mp4".data ∧
    outputPathOf "clip one.mp4" "/out" = pathJoin "/out" ("clip one" ++ ".mp3") ∧
    outputPathOf "clip one.mp4" "/out" = "/out/clip one.mp3" := by
  have hb : (basename "clip one.mp4").data = "clip one".data ++ '.' :: "mp4".data := by decide
  have h := C6_output_path_derivation "clip one.mp4" "/out" "clip one" "mp4" hb
    (by decide) ⟨'c', by decide, by decide⟩
  exact ⟨hb, h, by decide⟩

/-- C7 counterexample: the merge invocation does not pass the claimed
argument set `-y -i <in> -c:v copy -c:a copy -f mpegts <out>` — it passes
two `-i` inputs (the video segment and the sibling audio segment), 12
arguments against the claim's 10, so no choice of `<in>`/`<out>` matches. -/
theorem C7_counterexample_merge_args :
    (mergeCmd "ffmpeg" "v.m4s" "v.m4a" "v_merged.ts").tail ≠
      claimMergeArgs "v.m4s" "v_merged.ts" ∧
    ((mergeCmd "ffmpeg" "v.m4s" "v.m4a" "v_merged.ts").tail).length = 12 ∧
    (claimMergeArgs "v.m4s" "v_merged.ts").length = 10 := by
  refine ⟨?_, by decide, by decide⟩
  decide

/-- C7 amended: the merge invocation passes exactly
`-y -i <video> -i <audio> -c:v copy -c:a copy -f mpegts <out>` (two `-i`
inputs), and both encode invocations pass exactly
`-y -i <in> -vn -ar 44100 -ac 2 -b:a 192k [-af loudnorm] <out>`, with
`-af loudnorm` inserted before the output exactly when normalization is
requested; on the sibling-merge branch `run` starts exactly the merge
command followed by the extraction command. -/
theorem C7_amended_args (ffmpeg in1 in2 outf inf : String) (lnorm : Bool)
    (inp outd : String) (env : WorkerEnv)
    (hin : env.inputExists = true) (hsib : env.siblingExists = true)
    (hc1 : env.cancelAfterMerge = false) :
    (mergeCmd ffmpeg in1 in2 outf).tail =
      ["-y", "-i", in1, "-i", in2, "-c:v", "copy", "-c:a", "copy", "-f", "mpegts", outf] ∧
    (audioExtractCmd ffmpeg lnorm inf outf).tail = claimEncodeArgs lnorm inf outf ∧
    (directConvertCmd ffmpeg lnorm inf outf).tail = claimEncodeArgs lnorm inf outf ∧
    (run inp outd lnorm env).cmds =
      [mergeCmd env.ffmpegPath inp (siblingAudioOf inp) (mergedTsOf inp),
       audioExtractCmd env.ffmpegPath lnorm (mergedTsOf inp) (outputPathOf inp outd)] := by
  refine ⟨rfl, rfl, rfl, ?_⟩
  cases hcf : env.cancelAfterFinal with
  | true =>
    simp only [run, hin, hsib, hc1, hcf, Bool.not_true, Bool.false_eq_true, Bool.true_eq_false,
      if_false, if_true, eq_self_iff_true, ite_true, ite_false]
  | false =>
    by_cases hex : env.extractProc.exitCode = 0
    · simp only [run, hin, hsib, hc1, hcf, Bool.not_true, Bool.false_eq_true, Bool.true_eq_false,
        if_false, if_true, eq_self_iff_true, ite_true, ite_false, if_pos hex]
    · simp only [run, hin, hsib, hc1, hcf, Bool.not_true, Bool.false_eq_true, Bool.true_eq_false,
        if_false, if_true, eq_self_iff_true, ite_true, ite_false, if_neg hex]

/-- C7 amended witness: a concrete sibling-merge run with loudness
normalization on. -/
theorem C7_amended_args_witness :
    ((⟨"ffmpeg", true, true, "", ⟨[], 0⟩, ⟨[], 0⟩, ⟨[], 0⟩, false, false, 7⟩ : WorkerEnv).inputExists = true) ∧
    (run "v.m4s" "/o" true
        ⟨"ffmpeg", true, true, "", ⟨[], 0⟩, ⟨[], 0⟩, ⟨[], 0⟩, false, false, 7⟩).cmds =
      [["ffmpeg", "-y", "-i", "v.m4s", "-i", "v.m4a", "-c:v", "copy", "-c:a", "copy", "-f", "mpegts", "v_merged.ts"],
       ["ffmpeg", "-y", "-i", "v_merged.ts", "-vn", "-ar", "44100", "-ac", "2", "-b:a", "192k", "-af", "loudnorm", "/o/v.mp3"]] := by
  have h := (C7_amended_args "ffmpeg" "v.m4s" "v.m4a" "v_merged.ts" "v_merged.ts" true
    "v.m4s" "/o" ⟨"ffmpeg", true, true, "", ⟨[], 0⟩, ⟨[], 0⟩, ⟨[], 0⟩, false, false, 7⟩
    rfl rfl rfl).2.2.2
  refine ⟨rfl, ?_⟩
  rw [h]
  decide

/-- C8: when the probe output contains no `Duration: HH:MM:SS.ff` token,
`total_duration` stays `0`, the run emits no Progress events at all, and
the conversion still proceeds — a clean run still emits its Finished
event on either branch. -/
theorem C8_probe_failure_degrades (inp outd : String) (l : Bool) (env : WorkerEnv)
    (hdur : searchDuration env.probeStderr = none) :
    totalDurationOf env.probeStderr = 0 ∧
    (∀ e ∈ (run inp outd l env).events, e.isProgress = false) ∧
    (env.inputExists = true → env.cancelAfterMerge = false → env.cancelAfterFinal = false →
      (env.siblingExists = true → env.extractProc.exitCode = 0 →
        Event.finished (outputPathOf inp outd) env.elapsed ∈ (run inp outd l env).events) ∧
      (env.siblingExists = false → env.directProc.exitCode = 0 →
        Event.finished (outputPathOf inp outd) env.elapsed ∈ (run inp outd l env).events)) := by
  have htd : totalDurationOf env.probeStderr = 0 := by
    simp only [totalDurationOf, hdur]
  refine ⟨htd, ?_, ?_⟩
  · intro e he
    cases e with
    | progress f n =>
      exfalso
      obtain ⟨_, hpos, _⟩ := run_progress_origin he
      rw [htd] at hpos
      exact lt_irrefl 0 hpos
    | finished _ _ => rfl
    | error _ => rfl
  · intro hin hc1 hcf
    exact ⟨fun hsib hex => run_finished_sibling hin hsib hc1 hcf hex,
           fun hsib hex => run_finished_direct hin hsib hcf hex⟩

/-- C8 witness: a probe output with no duration token, on a clean direct
conversion. -/
theorem C8_probe_failure_degrades_witness :
    searchDuration "no duration here" = none ∧
    totalDurationOf "no duration here" = 0 ∧
    (∀ e ∈ (run "a.mp4" "/o" false
        ⟨"ffmpeg", true, false, "no duration here", ⟨[], 0⟩, ⟨[], 0⟩,
          ⟨[Chunk.out "time=00:00:05.00"], 0⟩, false, false, 7⟩).events,
      e.isProgress = false) ∧
    Event.finished (outputPathOf "a.mp4" "/o")
        (⟨"ffmpeg", true, false, "no duration here", ⟨[], 0⟩, ⟨[], 0⟩,
          ⟨[Chunk.out "time=00:00:05.00"], 0⟩, false, false, 7⟩ : WorkerEnv).elapsed ∈
      (run "a.mp4" "/o" false
        ⟨"ffmpeg", true, false, "no duration here", ⟨[], 0⟩, ⟨[], 0⟩,
          ⟨[Chunk.out "time=00:00:05.00"], 0⟩, false, false, 7⟩).events := by
  have hdur : searchDuration "no duration here" = none := by decide
  have h := C8_probe_failure_degrades "a.mp4" "/o" false
    ⟨"ffmpeg", true, false, "no duration here", ⟨[], 0⟩, ⟨[], 0⟩,
      ⟨[Chunk.out "time=00:00:05.00"], 0⟩, false, false, 7⟩ hdur
  exact ⟨hdur, h.1, h.2.1, (h.2.2 rfl rfl rfl).2 rfl rfl⟩

/-- C9: on the sibling-merge branch, a non-zero extraction exit without
cancellation emits the extraction-failure Error, removes nothing (the
`_merged.ts` intermediate stays on disk) and emits no Finished event;
the intermediate is removed exactly on success or on cancellation
detected after the extraction. -/
theorem C9_extract_failure_keeps_intermediate (inp outd : String) (l : Bool) (env : WorkerEnv)
    (hin : env.inputExists = true) (hsib : env.siblingExists = true)
    (hc1 : env.cancelAfterMerge = false) :
    (env.cancelAfterFinal = false → env.extractProc.exitCode ≠ 0 →
      Event.error "❌ 音频提取失败" ∈ (run inp outd l env).events ∧
      (run inp outd l env).removed = [] ∧
      ∀ pa el, Event.finished pa el ∉ (run inp outd l env).events) ∧
    (env.cancelAfterFinal = false → env.extractProc.exitCode = 0 →
      (run inp outd l env).removed = [mergedTsOf inp]) ∧
    (env.cancelAfterFinal = true → (run inp outd l env).removed = [mergedTsOf inp]) := by
  refine ⟨fun hcf hex => ⟨run_error_sibling hin hsib hc1 hcf hex, ?_, ?_⟩, fun hcf hex => ?_, fun hcf => ?_⟩
  · simp only [run, hin, hsib, hc1, hcf, Bool.not_true, Bool.false_eq_true, Bool.true_eq_false,
      if_false, if_true, eq_self_iff_true, ite_true, ite_false, if_neg hex]
  · intro pa el hmem
    obtain ⟨_, _, _, _, hs, _⟩ := run_finished_origin hmem
    exact hex (hs hsib).2
  · simp only [run, hin, hsib, hc1, hcf, Bool.not_true, Bool.false_eq_true, Bool.true_eq_false,
      if_false, if_true, eq_self_iff_true, ite_true, ite_false, if_pos hex]
  · simp only [run, hin, hsib, hc1, hcf, Bool.not_true, Bool.false_eq_true, Bool.true_eq_false,
      if_false, if_true, eq_self_iff_true, ite_true, ite_false]

/-- C9 witness: a concrete failed extraction (exit code 1). -/
theorem C9_extract_failure_keeps_intermediate_witness :
    ((⟨"ffmpeg", true, true, "", ⟨[], 0⟩, ⟨[], 1⟩, ⟨[], 0⟩, false, false, 7⟩ : WorkerEnv).extractProc.exitCode ≠ 0) ∧
    Event.error "❌ 音频提取失败" ∈ (run "v.m4s" "/o" false
      ⟨"ffmpeg", true, true, "", ⟨[], 0⟩, ⟨[], 1⟩, ⟨[], 0⟩, false, false, 7⟩).events ∧
    (run "v.m4s" "/o" false
      ⟨"ffmpeg", true, true, "", ⟨[], 0⟩, ⟨[], 1⟩, ⟨[], 0⟩, false, false, 7⟩).removed = [] := by
  have hex : ((⟨"ffmpeg", true, true, "", ⟨[], 0⟩, ⟨[], 1⟩, ⟨[], 0⟩, false, false, 7⟩ : WorkerEnv).extractProc.exitCode ≠ 0) := by decide
  have h := (C9_extract_failure_keeps_intermediate "v.m4s" "/o" false
    ⟨"ffmpeg", true, true, "", ⟨[], 0⟩, ⟨[], 1⟩, ⟨[], 0⟩, false, false, 7⟩ rfl rfl rfl).1 rfl hex
  exact ⟨hex, h.1, h.2.1⟩

/-- C10: every Progress event's filename equals the basename of the
job's original input path — also during the extraction phase of the
sibling-merge branch — and its fraction is a `time=` value parsed from a
subprocess stdout chunk divided by the total duration probed from the
original input. -/
theorem C10_progress_filename_fraction (inp outd : String) (l : Bool) (env : WorkerEnv)
    (f : ℚ) (n : String) (h : Event.progress f n ∈ (run inp outd l env).events) :
    n = basename inp ∧
    ∃ s g, Chunk.out s ∈ allChunks env ∧ searchTime s = some g ∧
      f = (time_str_to_seconds g).getD 0 / totalDurationOf env.probeStderr := by
  obtain ⟨h1, _, h3⟩ := run_progress_origin h
  exact ⟨h1, h3⟩

/-- C10 witness: a progress event emitted during the extraction phase of
a sibling-merge run carries the original input's basename and the
original probed duration as denominator. -/
theorem C10_progress_filename_fraction_witness :
    Event.progress ((1 : ℚ)/2) "v.m4s" ∈ (run "v.m4s" "/o" false
      ⟨"ffmpeg", true, true, " Duration: 00:00:10.00,", ⟨[], 0⟩,
        ⟨[Chunk.out "time=00:00:05.00 x"], 0⟩, ⟨[], 0⟩, false, false, 7⟩).events ∧
    ("v.m4s" = basename "v.m4s" ∧
      ∃ s g, Chunk.out s ∈ allChunks
          ⟨"ffmpeg", true, true, " Duration: 00:00:10.00,", ⟨[], 0⟩,
            ⟨[Chunk.out "time=00:00:05.00 x"], 0⟩, ⟨[], 0⟩, false, false, 7⟩ ∧
        searchTime s = some g ∧
        (1 : ℚ)/2 = (time_str_to_seconds g).getD 0 /
          totalDurationOf (⟨"ffmpeg", true, true, " Duration: 00:00:10.00,", ⟨[], 0⟩,
            ⟨[Chunk.out "time=00:00:05.00 x"], 0⟩, ⟨[], 0⟩, false, false, 7⟩ : WorkerEnv).probeStderr) := by
  have h1 : totalDurationOf " Duration: 00:00:10.00," = 10 := by
    have h : searchDuration " Duration: 00:00:10.00," = some "00:00:10.00" := by decide
    simp only [totalDurationOf, h]
    simp [time_str_to_seconds, splitOnChar, digitsVal, pyFloat]
  have h2 : searchTime "time=00:00:05.00 x" = some "00:00:05.00" := by decide
  have h3 : time_str_to_seconds "00:00:05.00" = some 5 := by
    simp [time_str_to_seconds, splitOnChar, digitsVal, pyFloat]
  have h4 : pyStrip "time=00:00:05.00 x".data ≠ [] := by decide
  have hev : (run "v.m4s" "/o" false
      ⟨"ffmpeg", true, true, " Duration: 00:00:10.00,", ⟨[], 0⟩,
        ⟨[Chunk.out "time=00:00:05.00 x"], 0⟩, ⟨[], 0⟩, false, false, 7⟩).events =
      [Event.progress ((1 : ℚ)/2) "v.m4s", Event.finished "/o/v.mp3" 7] := by
    simp [run, procEvents, chunkEvents, h1, h2, h3, h4, outputPathOf, basename, basenameL,
      splitextStem, splitextStemL, pathJoin]
    norm_num
  have hmem : Event.progress ((1 : ℚ)/2) "v.m4s" ∈ (run "v.m4s" "/o" false
      ⟨"ffmpeg", true, true, " Duration: 00:00:10.00,", ⟨[], 0⟩,
        ⟨[Chunk.out "time=00:00:05.00 x"], 0⟩, ⟨[], 0⟩, false, false, 7⟩).events := by
    rw [hev]
    exact List.mem_cons_self _ _
  exact ⟨hmem, C10_progress_filename_fraction "v.m4s" "/o" false _ _ _ hmem⟩

/-- C1 counterexample: a fully successful job (input present, direct
conversion exits 0, never cancelled) that still emits an Error event —
`_read_stderr` forwards every non-blank stderr chunk through
`error_signal`, so "Error only if a step fails" is false. -/
theorem C1_counterexample_success_with_error :
    (run "a.mp4" "/o" false
      ⟨"ffmpeg", true, false, "", ⟨[], 0⟩, ⟨[], 0⟩,
        ⟨[Chunk.err "ffmpeg version 6"], 0⟩, false, false, 7⟩).events =
      [Event.error "⚠️ FFmpeg 输出: ffmpeg version 6", Event.finished "/o/a.mp3" 7] ∧
    (⟨"ffmpeg", true, false, "", ⟨[], 0⟩, ⟨[], 0⟩,
        ⟨[Chunk.err "ffmpeg version 6"], 0⟩, false, false, 7⟩ : WorkerEnv).directProc.exitCode = 0 ∧
    (run "a.mp4" "/o" false
      ⟨"ffmpeg", true, false, "", ⟨[], 0⟩, ⟨[], 0⟩,
        ⟨[Chunk.err "ffmpeg version 6"], 0⟩, false, false, 7⟩).events.countP Event.isError = 1 ∧
    (run "a.mp4" "/o" false
      ⟨"ffmpeg", true, false, "", ⟨[], 0⟩, ⟨[], 0⟩,
        ⟨[Chunk.err "ffmpeg version 6"], 0⟩, false, false, 7⟩).events.countP Event.isFinished = 1 := by
  refine ⟨by decide, rfl, ?_, ?_⟩ <;> decide

/-- C1 amended: a job whose final encode exits 0 uncancelled emits
Finished(output path, elapsed); each step failure emits its Error; and
every Error event is either a step-failure message or a forwarded
non-blank stderr chunk — so a successful job emits no Error exactly when
its subprocesses keep stderr blank. -/
theorem C1_amended_finished_error (inp outd : String) (l : Bool) (env : WorkerEnv) :
    (env.inputExists = true → env.cancelAfterMerge = false → env.cancelAfterFinal = false →
      (env.siblingExists = true → env.extractProc.exitCode = 0 →
        Event.finished (outputPathOf inp outd) env.elapsed ∈ (run inp outd l env).events) ∧
      (env.siblingExists = false → env.directProc.exitCode = 0 →
        Event.finished (outputPathOf inp outd) env.elapsed ∈ (run inp outd l env).events)) ∧
    (env.inputExists = false →
      Event.error ("❌ 输入文件不存在: " ++ inp) ∈ (run inp outd l env).events) ∧
    (env.inputExists = true → env.cancelAfterMerge = false → env.cancelAfterFinal = false →
      env.siblingExists = true → env.extractProc.exitCode ≠ 0 →
      Event.error "❌ 音频提取失败" ∈ (run inp outd l env).events) ∧
    (env.inputExists = true → env.cancelAfterFinal = false → env.siblingExists = false →
      env.directProc.exitCode ≠ 0 →
      Event.error "❌ 直接转换失败" ∈ (run inp outd l env).events) ∧
    (∀ m, Event.error m ∈ (run inp outd l env).events →
      (env.inputExists = false ∧ m = "❌ 输入文件不存在: " ++ inp) ∨
      (env.siblingExists = true ∧ env.extractProc.exitCode ≠ 0 ∧ m = "❌ 音频提取失败") ∨
      (env.siblingExists = false ∧ env.directProc.exitCode ≠ 0 ∧ m = "❌ 直接转换失败") ∨
      (∃ s, Chunk.err s ∈ allChunks env ∧ pyStrip s.data ≠ [] ∧
        m = "⚠️ FFmpeg 输出: " ++ (⟨pyStrip s.data⟩ : String))) ∧
    (env.inputExists = true →
      (env.siblingExists = true → env.extractProc.exitCode = 0) →
      (env.siblingExists = false → env.directProc.exitCode = 0) →
      (∀ s, Chunk.err s ∈ allChunks env → pyStrip s.data = []) →
      ∀ m, Event.error m ∉ (run inp outd l env).events) := by
  refine ⟨?_, ?_, ?_, ?_, ?_, ?_⟩
  · intro hin hc1 hcf
    exact ⟨fun hsib hex => run_finished_sibling hin hsib hc1 hcf hex,
           fun hsib hex => run_finished_direct hin hsib hcf hex⟩
  · intro hin
    rw [run_error_missing hin]
    exact List.mem_singleton.mpr rfl
  · intro hin hc1 hcf hsib hex
    exact run_error_sibling hin hsib hc1 hcf hex
  · intro hin hcf hsib hex
    exact run_error_direct hin hsib hcf hex
  · intro m hm
    exact run_error_origin hm
  · intro hin hsibex hdirex hblank m hm
    rcases run_error_origin hm with ⟨hf, _⟩ | ⟨hs, hex, _⟩ | ⟨hs, hex, _⟩ | ⟨s, hcs, hne, _⟩
    · rw [hin] at hf; cases hf
    · exact hex (hsibex hs)
    · exact hex (hdirex hs)
    · exact hne (hblank s hcs)

/-- C1 amended witness: a clean direct conversion with blank stderr
emits Finished and no Error. -/
theorem C1_amended_finished_error_witness :
    ((⟨"ffmpeg", true, false, "", ⟨[], 0⟩, ⟨[], 0⟩, ⟨[Chunk.err "  "], 0⟩, false, false, 7⟩ : WorkerEnv).inputExists = true) ∧
    Event.finished (outputPathOf "a.mp4" "/o") 7 ∈ (run "a.mp4" "/o" false
      ⟨"ffmpeg", true, false, "", ⟨[], 0⟩, ⟨[], 0⟩, ⟨[Chunk.err "  "], 0⟩, false, false, 7⟩).events ∧
    (∀ m, Event.error m ∉ (run "a.mp4" "/o" false
      ⟨"ffmpeg", true, false, "", ⟨[], 0⟩, ⟨[], 0⟩, ⟨[Chunk.err "  "], 0⟩, false, false, 7⟩).events) := by
  have h := C1_amended_finished_error "a.mp4" "/o" false
    ⟨"ffmpeg", true, false, "", ⟨[], 0⟩, ⟨[], 0⟩, ⟨[Chunk.err "  "], 0⟩, false, false, 7⟩
  refine ⟨rfl, ?_, ?_⟩
  · exact (h.1 rfl rfl rfl).2 rfl rfl
  · refine h.2.2.2.2.2 rfl (fun hs => by cases hs) (fun _ => rfl) ?_
    intro s hcs
    have hs2 : Chunk.err s ∈ ([Chunk.err "  "] : List Chunk) := by
      simpa [allChunks] using hcs
    have hs3 : s = "  " := Chunk.err.inj (List.mem_singleton.mp hs2)
    rw [hs3]
    decide

/-- C2 counterexample: with a parseable probed duration of 90.5 seconds,
a stdout chunk reporting `time=00:02:00.00` (120 s) yields the progress
fraction `240/181 > 1` — the code neither clamps the fraction to `[0,1]`
nor enforces it. -/
theorem C2_counterexample_fraction_above_one :
    totalDurationOf " Duration: 00:01:30.50," = (90.5 : ℚ) ∧
    progressFracs (run "a.mp4" "/o" false
      ⟨"ffmpeg", true, false, " Duration: 00:01:30.50,", ⟨[], 0⟩, ⟨[], 0⟩,
        ⟨[Chunk.out "time=00:02:00.00 bitrate"], 0⟩, false, false, 7⟩).events =
      [(240 : ℚ)/181] ∧
    ¬ ((240 : ℚ)/181 ≤ 1) := by
  have hsd : searchDuration " Duration: 00:01:30.50," = some "00:01:30.50" := by decide
  have h1 : totalDurationOf " Duration: 00:01:30.50," = (90.5 : ℚ) := by
    simp only [totalDurationOf, hsd]
    simp [time_str_to_seconds, splitOnChar, digitsVal, pyFloat]
    norm_num
  have h2 : searchTime "time=00:02:00.00 bitrate" = some "00:02:00.00" := by decide
  have h3 : time_str_to_seconds "00:02:00.00" = some 120 := by
    simp [time_str_to_seconds, splitOnChar, digitsVal, pyFloat]
    norm_num
  have h4 : pyStrip "time=00:02:00.00 bitrate".data ≠ [] := by decide
  have hev : (run "a.mp4" "/o" false
      ⟨"ffmpeg", true, false, " Duration: 00:01:30.50,", ⟨[], 0⟩, ⟨[], 0⟩,
        ⟨[Chunk.out "time=00:02:00.00 bitrate"], 0⟩, false, false, 7⟩).events =
      [Event.progress ((240 : ℚ)/181) "a.mp4", Event.finished "/o/a.mp3" 7] := by
    simp [run, procEvents, chunkEvents, h1, h2, h3, h4, outputPathOf, basename, basenameL,
      splitextStem, splitextStemL, pathJoin]
    norm_num
  refine ⟨h1, ?_, by norm_num⟩
  rw [hev]
  rfl

/-- C2 amended: every progress fraction equals a parsed `time=` value
divided by the probed duration `D > 0`, hence is non-negative; the
fractions all lie in `[0,1]` and are monotonically non-decreasing
provided the time values the subprocess reports are at most `D` and
non-decreasing — the code itself does not clamp or enforce either
bound. -/
theorem C2_amended_progress_bounds (inp outd : String) (l : Bool) (env : WorkerEnv)
    (hD : totalDurationOf env.probeStderr > 0)
    (hle : ∀ t ∈ chunkTimes (activeChunks env), t ≤ totalDurationOf env.probeStderr)
    (hmono : List.Chain' (· ≤ ·) (chunkTimes (activeChunks env))) :
    (∀ f ∈ progressFracs (run inp outd l env).events, 0 ≤ f ∧ f ≤ 1) ∧
    List.Chain' (· ≤ ·) (progressFracs (run inp outd l env).events) := by
  rw [run_progressFracs hD]
  constructor
  · intro f hf
    obtain ⟨t, ht, rfl⟩ := List.mem_map.mp hf
    exact ⟨div_nonneg (chunkTimes_nonneg t ht) (le_of_lt hD),
           (div_le_one hD).mpr (hle t ht)⟩
  · rw [List.chain'_map]
    exact List.Chain'.imp (fun a b hab => (div_le_div_iff_of_pos_right hD).mpr hab) hmono

/-- C2 amended witness: duration 10 s with reported times 4 s then 8 s
gives fractions in `[0,1]`, non-decreasing. -/
theorem C2_amended_progress_bounds_witness :
    totalDurationOf " Duration: 00:00:10.00," > 0 ∧
    ((∀ f ∈ progressFracs (run "a.mp4" "/o" false
        ⟨"ffmpeg", true, false, " Duration: 00:00:10.00,", ⟨[], 0⟩, ⟨[], 0⟩,
          ⟨[Chunk.out "time=00:00:04.00 b", Chunk.out "time=00:00:08.00 b"], 0⟩,
          false, false, 7⟩).events, 0 ≤ f ∧ f ≤ 1) ∧
     List.Chain' (· ≤ ·) (progressFracs (run "a.mp4" "/o" false
        ⟨"ffmpeg", true, false, " Duration: 00:00:10.00,", ⟨[], 0⟩, ⟨[], 0⟩,
          ⟨[Chunk.out "time=00:00:04.00 b", Chunk.out "time=00:00:08.00 b"], 0⟩,
          false, false, 7⟩).events)) := by
  have hsd : searchDuration " Duration: 00:00:10.00," = some "00:00:10.00" := by decide
  have hD : totalDurationOf " Duration: 00:00:10.00," = 10 := by
    simp only [totalDurationOf, hsd]
    simp [time_str_to_seconds, splitOnChar, digitsVal, pyFloat]
  have h2a : searchTime "time=00:00:04.00 b" = some "00:00:04.00" := by decide
  have h2b : searchTime "time=00:00:08.00 b" = some "00:00:08.00" := by decide
  have h3a : time_str_to_seconds "00:00:04.00" = some 4 := by
    simp [time_str_to_seconds, splitOnChar, digitsVal, pyFloat]
  have h3b : time_str_to_seconds "00:00:08.00" = some 8 := by
    simp [time_str_to_seconds, splitOnChar, digitsVal, pyFloat]
  have h4a : pyStrip "time=00:00:04.00 b".data ≠ [] := by decide
  have h4b : pyStrip "time=00:00:08.00 b".data ≠ [] := by decide
  have hct : chunkTimes (activeChunks
      ⟨"ffmpeg", true, false, " Duration: 00:00:10.00,", ⟨[], 0⟩, ⟨[], 0⟩,
        ⟨[Chunk.out "time=00:00:04.00 b", Chunk.out "time=00:00:08.00 b"], 0⟩,
        false, false, 7⟩) = [4, 8] := by
    simp [activeChunks, chunkTimes, chunkTime, h2a, h2b, h3a, h3b, h4a, h4b]
  have hDpos : totalDurationOf " Duration: 00:00:10.00," > 0 := by rw [hD]; norm_num
  refine ⟨hDpos, C2_amended_progress_bounds "a.mp4" "/o" false _ hDpos ?_ ?_⟩
  · intro t ht
    rw [hct] at ht
    rcases List.mem_cons.mp ht with rfl | ht
    · rw [hD]; norm_num
    · rcases List.mem_singleton.mp ht with rfl
      rw [hD]; norm_num
  · rw [hct]
    refine List.chain'_cons.mpr ⟨by norm_num, ?_⟩
    exact List.chain'_singleton 8

/-- C3 counterexample: a job cancelled right after the merge step
(cancellation observed at the post-merge check) returns without removing
anything — the merge command had already been started and its
`_merged.ts` output is left on disk, so "any intermediate merge artifact
is removed" is false. -/
theorem C3_counterexample_intermediate_left :
    (⟨"ffmpeg", true, true, "", ⟨[], 0⟩, ⟨[], 0⟩, ⟨[], 0⟩, true, true, 7⟩ : WorkerEnv).cancelAfterMerge = true ∧
    (run "v.m4s" "/o" false
      ⟨"ffmpeg", true, true, "", ⟨[], 0⟩, ⟨[], 0⟩, ⟨[], 0⟩, true, true, 7⟩).cmds =
      [mergeCmd "ffmpeg" "v.m4s" "v.m4a" "v_merged.ts"] ∧
    (run "v.m4s" "/o" false
      ⟨"ffmpeg", true, true, "", ⟨[], 0⟩, ⟨[], 0⟩, ⟨[], 0⟩, true, true, 7⟩).removed = [] := by
  refine ⟨rfl, by decide, by decide⟩

/-- C3 amended: once cancellation is observed at a cancellation check, no
Finished event is emitted; the `_merged.ts` intermediate is removed only
when cancellation is observed at the check after the extraction step —
cancellation observed right after the merge step leaves it on disk. -/
theorem C3_amended_cancel_semantics (inp outd : String) (l : Bool) (env : WorkerEnv) :
    (env.cancelAfterFinal = true →
      ∀ pa el, Event.finished pa el ∉ (run inp outd l env).events) ∧
    (env.siblingExists = true → env.cancelAfterMerge = true →
      (∀ pa el, Event.finished pa el ∉ (run inp outd l env).events) ∧
      (run inp outd l env).removed = []) ∧
    (env.inputExists = true → env.siblingExists = true → env.cancelAfterMerge = false →
      env.cancelAfterFinal = true → (run inp outd l env).removed = [mergedTsOf inp]) := by
  refine ⟨?_, ?_, ?_⟩
  · intro hcf pa el hmem
    obtain ⟨_, hc, _⟩ := run_finished_origin hmem
    rw [hcf] at hc
    cases hc
  · intro hsib hc1
    constructor
    · intro pa el hmem
      obtain ⟨_, _, _, _, hs, _⟩ := run_finished_origin hmem
      have hfalse := (hs hsib).1
      rw [hc1] at hfalse
      cases hfalse
    · cases hin : env.inputExists with
      | false => simp only [run, hin, Bool.not_false, if_true]
      | true =>
        simp only [run, hin, hsib, hc1, Bool.not_true, Bool.false_eq_true, if_false, if_true,
          eq_self_iff_true, ite_true, ite_false]
  · intro hin hsib hc1 hcf
    simp only [run, hin, hsib, hc1, hcf, Bool.not_true, Bool.false_eq_true, Bool.true_eq_false,
      if_false, if_true, eq_self_iff_true, ite_true, ite_false]

/-- C3 amended witness: cancellation observed at the post-extraction
check removes the intermediate and emits no Finished event. -/
theorem C3_amended_cancel_semantics_witness :
    ((⟨"ffmpeg", true, true, "", ⟨[], 0⟩, ⟨[], 0⟩, ⟨[], 0⟩, false, true, 7⟩ : WorkerEnv).cancelAfterFinal = true) ∧
    (∀ pa el, Event.finished pa el ∉ (run "v.m4s" "/o" false
      ⟨"ffmpeg", true, true, "", ⟨[], 0⟩, ⟨[], 0⟩, ⟨[], 0⟩, false, true, 7⟩).events) ∧
    (run "v.m4s" "/o" false
      ⟨"ffmpeg", true, true, "", ⟨[], 0⟩, ⟨[], 0⟩, ⟨[], 0⟩, false, true, 7⟩).removed =
      [mergedTsOf "v.m4s"] := by
  have h := C3_amended_cancel_semantics "v.m4s" "/o" false
    ⟨"ffmpeg", true, true, "", ⟨[], 0⟩, ⟨[], 0⟩, ⟨[], 0⟩, false, true, 7⟩
  exact ⟨rfl, h.1 rfl, h.2.2 rfl rfl rfl rfl⟩
